import Mathlib

/-!
Verification of the libs3 request engine (src/request.c) against its
natural-language specification.  The definitions below are a shallow
embedding of the C code: C strings are modelled as lists of characters
(the terminating NUL is the end of the list), bounded output buffers are
modelled as a list of already written characters together with the
maxlen bound, and each C function that mutates a buffer becomes a pure
function returning a status and the new buffer contents.
-/

/-! ## Status codes (subset of the S3Status enumeration used here) -/

inductive S3Status where
  | S3StatusOK
  | S3StatusInternalError
  | S3StatusOutOfMemory
  | S3StatusAbortedByCallback
  | S3StatusBadMetaData
  | S3StatusQueryParamsTooLong
  | S3StatusHeadersTooLong
  | S3StatusUriTooLong
  | S3StatusMetaDataHeadersTooLong
  | S3StatusErrorInvalidURI
  | S3StatusConnectionFailed
  | S3StatusErrorPermanentRedirect
  | S3StatusHttpErrorMovedTemporarily
  | S3StatusHttpErrorBadRequest
  | S3StatusHttpErrorForbidden
  | S3StatusHttpErrorNotFound
  | S3StatusErrorMethodNotAllowed
  | S3StatusHttpErrorConflict
  | S3StatusErrorMissingContentLength
  | S3StatusErrorPreconditionFailed
  | S3StatusErrorInvalidRange
  | S3StatusErrorInternalError
  | S3StatusErrorNotImplemented
  | S3StatusErrorSlowDown
  | S3StatusHttpErrorUnknown
  deriving DecidableEq

open S3Status

/-! ## Characters and C string helpers -/

/-- NUL character, the C string terminator.  A Lean list never contains it
when it stands for a C string; buffers carrying raw ASN.1 bytes may. -/
def nulChar : Char := Char.ofNat 0

/-- ASCII tolower as used by strcasecmp and friends on the inputs at hand. -/
def lowerc (c : Char) : Char :=
  if 'A' ≤ c ∧ c ≤ 'Z' then Char.ofNat (c.toNat + 32) else c

/-- Modelled from the spec: the helper is_blank lives in util.h, which is not
part of src/.  The spec describes folding of CRLF followed by whitespace and
trimming of blanks; blank means space or horizontal tab (C isblank set). -/
def is_blank (c : Char) : Bool := c == ' ' || c == '\t'

/-- A list stands for a C string only when it contains no NUL byte. -/
def noNul (l : List Char) : Prop := nulChar ∉ l

instance (l : List Char) : Decidable (noNul l) := by
  unfold noNul; infer_instance

/-- C strncasecmp on list-modelled strings: the end of a list plays the role
of the terminating NUL.  Returns the difference of the first mismatching
lowercased characters (NUL counting as 0), or 0 after n equal characters or
simultaneous string end. -/
def strncasecmpZ : List Char → List Char → Nat → Int
  | _, _, 0 => 0
  | [], [], _ + 1 => 0
  | [], c :: _, _ + 1 => 0 - ((lowerc c).toNat : Int)
  | c :: _, [], _ + 1 => ((lowerc c).toNat : Int)
  | c1 :: t1, c2 :: t2, n + 1 =>
    if lowerc c1 = lowerc c2 then strncasecmpZ t1 t2 n
    else ((lowerc c1).toNat : Int) - ((lowerc c2).toNat : Int)

/-- C strcasecmp on list-modelled strings. -/
def strcasecmpZ : List Char → List Char → Int
  | [], [] => 0
  | [], c :: _ => 0 - ((lowerc c).toNat : Int)
  | c :: _, [] => ((lowerc c).toNat : Int)
  | c1 :: t1, c2 :: t2 =>
    if lowerc c1 = lowerc c2 then strcasecmpZ t1 t2
    else ((lowerc c1).toNat : Int) - ((lowerc c2).toNat : Int)

/-- C strchr: the suffix of the string starting at the first occurrence of c,
or none when c does not occur. -/
def strchrSuffix (c : Char) : List Char → Option (List Char)
  | [] => none
  | x :: t => if x = c then some (x :: t) else strchrSuffix c t

/-! ## Bounded output buffer (request.c string_append_char) -/

/-- Contents already written into a bounded C character buffer. -/
abbrev Buf := List Char

/-- string_append_char from request.c: fails (returning S3StatusUriTooLong,
buffer untouched) when plen has reached maxlen - 1, else appends the byte. -/
def string_append_char (maxlen : Nat) (buf : Buf) (c : Char) : S3Status × Buf :=
  if maxlen - 1 ≤ buf.length then (S3StatusUriTooLong, buf)
  else (S3StatusOK, buf ++ [c])

/-- Removal of the trailing characters satisfying p (the C loops walk the
buffer end backwards while the predicate holds). -/
def dropWhileEndB (p : Char → Bool) (l : List Char) : List Char :=
  (l.reverse.dropWhile p).reverse

/-- Repeated string_append_char over a list of bytes; any failure is
reported as S3StatusHeadersTooLong (the treatment canonicalize_headers
applies to the signed headers copy loop). -/
def append_all_chars (maxlen : Nat) (buf : Buf) : List Char → S3Status × Buf
  | [] => (S3StatusOK, buf)
  | c :: rest =>
    match string_append_char maxlen buf c with
    | (S3StatusOK, buf2) => append_all_chars maxlen buf2 rest
    | (_, buf2) => (S3StatusHeadersTooLong, buf2)

/-! ## A helper lexicographic order on lists of naturals.

The two comparison functions of request.c (headerle, paramle) are byte walks
that stop at a terminator set.  For proofs they are characterised through a
key extraction to lists of naturals compared lexicographically; kltb is that
lexicographic strict comparison. -/

def kltb : List Nat → List Nat → Bool
  | [], [] => false
  | [], _ :: _ => true
  | _ :: _, [] => false
  | a :: as, b :: bs =>
    if a < b then true else if b < a then false else kltb as bs

/-! ## The two comparison functions and the gnome sort of request.c -/

/-- headerle from request.c: compares two composed header lines by the bytes
of their names, where the name ends at the colon.  Equal names compare as
false in both directions (a strict comparison).  The cases in which a line
ends before any colon never arise for composed amz header lines; they are
resolved the way the byte walk treats the NUL terminator. -/
def headerle : List Char → List Char → Bool
  | c1 :: t1, c2 :: t2 =>
    if c1 = ':' then decide (c2 ≠ ':')
    else if c2 = ':' then false
    else if c2 < c1 then false
    else if c2 > c1 then true
    else headerle t1 t2
  | [], c2 :: _ => if c2 = ':' then false else true
  | c1 :: _, [] => if c1 = ':' then true else false
  | [], [] => false

/-- Name key of a header line: its bytes up to the colon, shifted by 2, with
a sentinel 0 for a colon terminator and 1 for a string end.  headerle is
exactly the kltb comparison of these keys. -/
def hkey : List Char → List Nat
  | [] => [1]
  | c :: t => if c = ':' then [0] else (c.toNat + 2) :: hkey t

/-- headerle_nocase from request.c: the case-insensitive variant used for the
V4 canonical headers; note that it returns true when the first name ends
first, so ties compare as true (a non-strict comparison). -/
def headerle_nocase : List Char → List Char → Bool
  | c1 :: t1, c2 :: t2 =>
    if c1 = ':' then true
    else if c2 = ':' then false
    else if lowerc c2 < lowerc c1 then false
    else if lowerc c1 < lowerc c2 then true
    else headerle_nocase t1 t2
  | [], c2 :: _ => if c2 = ':' then false else true
  | c1 :: _, [] => if c1 = ':' then true else false
  | [], [] => true

/-- paramle from request.c: compares two query parameters by bytes, the
terminator set being the equals sign, the ampersand and NUL.  The first
parameter reaching a terminator compares as true. -/
def paramle : List Char → List Char → Bool
  | c1 :: t1, c2 :: t2 =>
    if c1 = '=' ∨ c1 = '&' then true
    else if c2 = '=' ∨ c2 = '&' then false
    else if c2 < c1 then false
    else if c2 > c1 then true
    else paramle t1 t2
  | [], _ => true
  | c1 :: _, [] => if c1 = '=' ∨ c1 = '&' then true else false

/-- Name key of a query parameter: bytes up to the first terminator shifted
by 1, with a sentinel 0 for the terminator.  paramle is the non-strict kltb
comparison of these keys. -/
def pkey : List Char → List Nat
  | [] => [0]
  | c :: t => if c = '=' ∨ c = '&' then [0] else (c.toNat + 1) :: pkey t

/-- Swap of the adjacent elements at positions n and n + 1, the single
mutation step of the gnome sorts in request.c. -/
def swap_back : List α → Nat → List α
  | x :: y :: t, 0 => y :: x :: t
  | x :: t, n + 1 => x :: swap_back t n
  | l, _ => l

/-- One-loop body of general_gnome_sort / header_gnome_sort from request.c,
with an explicit fuel (the loop terminates; the callers hand enough fuel for
any input).  State: the array of entries, the index i and last_highest. -/
def gnome_step [Inhabited α] (le : α → α → Bool) :
    Nat → List α → Nat → Nat → List α
  | 0, l, _, _ => l
  | fuel + 1, l, i, lastHighest =>
    if i < l.length then
      if i = 0 ∨ le (l.getD (i - 1) default) (l.getD i default) = true then
        gnome_step le fuel l (lastHighest + 1) (lastHighest + 1)
      else
        gnome_step le fuel (swap_back l (i - 1)) (i - 1) lastHighest
    else l

/-- general_gnome_sort from request.c. -/
def general_gnome_sort [Inhabited α] (le : α → α → Bool) (l : List α) :
    List α :=
  gnome_step le ((l.length + 1) * (l.length + 1)) l 0 0

/-- header_gnome_sort from request.c: the same loop with headerle inlined. -/
def header_gnome_sort (headers : List (List Char)) : List (List Char) :=
  general_gnome_sort headerle headers

/-! ## Reference stable insertion sort.

Used to state what the gnome loop computes: the element x is inserted behind
every prefix element y with le y x, which is the resting position the
backward swaps of the gnome loop reach. -/

def stableInsert (le : α → α → Bool) (x : α) : List α → List α
  | [] => [x]
  | y :: ys => if le y x = true then y :: stableInsert le x ys else x :: y :: ys

def stableInsertAll (le : α → α → Bool) (acc : List α) : List α → List α
  | [] => acc
  | x :: xs => stableInsertAll le (stableInsert le x acc) xs

def stableSort (le : α → α → Bool) (l : List α) : List α :=
  stableInsertAll le [] l

/-! ## canonicalize_amz_headers (V2) -/

/-- Value copy loop of canonicalize_amz_headers: copies bytes, folding every
CR LF blank sequence out (dropping the blanks on both sides, no separator
inserted).  The loop advances through its input; the structural fuel equals
the input length, which the loop never exhausts. -/
def amz_fold_value_go : Nat → List Char → List Char → List Char
  | 0, acc, _ => acc
  | _ + 1, acc, [] => acc
  | fuel + 1, acc, '\r' :: '\n' :: b :: rest =>
    if is_blank b then
      amz_fold_value_go fuel (dropWhileEndB is_blank acc)
        (rest.dropWhile is_blank)
    else
      amz_fold_value_go fuel (acc ++ ['\r']) ('\n' :: b :: rest)
  | fuel + 1, acc, c :: rest => amz_fold_value_go fuel (acc ++ [c]) rest

def amz_fold_value (acc l : List Char) : List Char :=
  amz_fold_value_go l.length acc l

/-- Output walk of canonicalize_amz_headers over the sorted lines.  The
state prevOpt carries the previous line and the recorded name length (the
bytes up to and including the colon); a line whose name equals the previous
one is merged by turning the previous newline into a comma. -/
def amz_walk (acc : List Char) (prevOpt : Option (List Char × Nat)) :
    List (List Char) → List Char
  | [] => acc
  | h :: rest =>
    match prevOpt with
    | some (prev, lastLen) =>
      if h.take lastLen = prev.take lastLen then
        amz_walk
          ((amz_fold_value (acc.dropLast ++ [',']) (h.drop (lastLen + 1)))
            ++ ['\n'])
          (some (h, lastLen)) rest
      else
        amz_walk
          ((amz_fold_value (acc ++ h.takeWhile (fun c => c ≠ ' '))
              (h.drop ((h.takeWhile (fun c => c ≠ ' ')).length + 1)))
            ++ ['\n'])
          (some (h, (h.takeWhile (fun c => c ≠ ' ')).length)) rest
    | none =>
      amz_walk
        ((amz_fold_value (acc ++ h.takeWhile (fun c => c ≠ ' '))
            (h.drop ((h.takeWhile (fun c => c ≠ ' ')).length + 1)))
          ++ ['\n'])
        (some (h, (h.takeWhile (fun c => c ≠ ' ')).length)) rest

/-- canonicalize_amz_headers from request.c: gnome sort by headerle, then
the merging output walk. -/
def canonicalize_amz_headers (headers : List (List Char)) : List Char :=
  amz_walk [] none (header_gnome_sort headers)

/-! ## canonicalize_headers (V4) -/

/-- Entry selection of canonicalize_headers: the first outbound header is
dropped when strncasecmp of its data against the 14 character literal
content-length with length argument 15 returns 0, which requires the
terminator position to match as well. -/
def skip_first_content_length (headers : List (List Char)) :
    List (List Char) :=
  match headers with
  | [] => []
  | h :: t =>
    if strncasecmpZ h ("content-length".toList) 15 = 0 then t else h :: t

/-- Name copy loop of canonicalize_headers: lowercases the bytes before the
colon into both the canonical buffer and the signed headers buffer, then
reports the remainder of the line (starting at the colon). -/
def hdr_copy_name (maxlen : Nat) (buf : Buf) (sgn : List Char) :
    List Char → S3Status × Buf × List Char × List Char
  | [] => (S3StatusOK, buf, sgn, [])
  | c :: rest =>
    if c = ':' then (S3StatusOK, buf, sgn, c :: rest)
    else
      match string_append_char maxlen buf (lowerc c) with
      | (S3StatusOK, buf2) =>
        match string_append_char 4096 sgn (lowerc c) with
        | (S3StatusOK, sgn2) => hdr_copy_name maxlen buf2 sgn2 rest
        | (_, sgn2) => (S3StatusHeadersTooLong, buf2, sgn2, c :: rest)
      | (_, buf2) => (S3StatusHeadersTooLong, buf2, sgn, c :: rest)

/-- Value copy loop of canonicalize_headers: like the amz variant but a
comma is inserted where a CR LF blank sequence is folded, and every append
is bounds checked.  Structural fuel as in amz_fold_value_go. -/
def hdr_fold_value_go (maxlen : Nat) :
    Nat → Buf → List Char → S3Status × Buf
  | 0, buf, _ => (S3StatusOK, buf)
  | _ + 1, buf, [] => (S3StatusOK, buf)
  | fuel + 1, buf, '\r' :: '\n' :: b :: rest =>
    if is_blank b then
      match string_append_char maxlen (dropWhileEndB is_blank buf) ',' with
      | (S3StatusOK, buf2) =>
        hdr_fold_value_go maxlen fuel buf2 (rest.dropWhile is_blank)
      | (_, buf2) => (S3StatusHeadersTooLong, buf2)
    else
      match string_append_char maxlen buf '\r' with
      | (S3StatusOK, buf2) =>
        hdr_fold_value_go maxlen fuel buf2 ('\n' :: b :: rest)
      | (_, buf2) => (S3StatusHeadersTooLong, buf2)
  | fuel + 1, buf, c :: rest =>
    match string_append_char maxlen buf c with
    | (S3StatusOK, buf2) => hdr_fold_value_go maxlen fuel buf2 rest
    | (_, buf2) => (S3StatusHeadersTooLong, buf2)

def hdr_fold_value (maxlen : Nat) (buf : Buf) (l : List Char) :
    S3Status × Buf :=
  hdr_fold_value_go maxlen l.length buf l

/-- Output walk of canonicalize_headers over the sorted header lines. -/
def hdr_walk (maxlen : Nat) (buf : Buf) (sgn : List Char)
    (prevOpt : Option (List Char × Nat)) :
    List (List Char) → S3Status × Buf × List Char
  | [] => (S3StatusOK, buf, sgn)
  | h :: rest =>
    match prevOpt with
    | some (prev, lastLen) =>
      if h.take lastLen = prev.take lastLen then
        match hdr_fold_value maxlen (buf.dropLast ++ [','])
            ((h.drop lastLen).dropWhile is_blank) with
        | (S3StatusOK, buf2) =>
          match string_append_char maxlen buf2 '\n' with
          | (S3StatusOK, buf3) =>
            hdr_walk maxlen buf3 sgn (some (h, lastLen)) rest
          | (_, buf3) => (S3StatusHeadersTooLong, buf3, sgn)
        | (st, buf2) => (st, buf2, sgn)
      else
        match
          (match (if sgn ≠ [] then string_append_char 4096 sgn ';'
                  else (S3StatusOK, sgn)) with
           | (S3StatusOK, sgn1) => hdr_copy_name maxlen buf sgn1 h
           | (_, sgn1) => (S3StatusHeadersTooLong, buf, sgn1, h)) with
        | (S3StatusOK, buf1, sgn1, nameRest) =>
          match string_append_char maxlen buf1 ':' with
          | (S3StatusOK, buf2) =>
            match hdr_fold_value maxlen buf2
                ((nameRest.drop 1).dropWhile is_blank) with
            | (S3StatusOK, buf3) =>
              match string_append_char maxlen buf3 '\n' with
              | (S3StatusOK, buf4) =>
                hdr_walk maxlen buf4 sgn1
                  (some (h, h.length - (nameRest.drop 1).length)) rest
              | (_, buf4) => (S3StatusHeadersTooLong, buf4, sgn1)
            | (st, buf3) => (st, buf3, sgn1)
          | (_, buf2) => (S3StatusHeadersTooLong, buf2, sgn1)
        | (st, buf1, sgn1, _) => (st, buf1, sgn1)
    | none =>
      match hdr_copy_name maxlen buf sgn h with
      | (S3StatusOK, buf1, sgn1, nameRest) =>
        match string_append_char maxlen buf1 ':' with
        | (S3StatusOK, buf2) =>
          match hdr_fold_value maxlen buf2
              ((nameRest.drop 1).dropWhile is_blank) with
          | (S3StatusOK, buf3) =>
            match string_append_char maxlen buf3 '\n' with
            | (S3StatusOK, buf4) =>
              hdr_walk maxlen buf4 sgn1
                (some (h, h.length - (nameRest.drop 1).length)) rest
            | (_, buf4) => (S3StatusHeadersTooLong, buf4, sgn1)
          | (st, buf3) => (st, buf3, sgn1)
        | (_, buf2) => (S3StatusHeadersTooLong, buf2, sgn1)
      | (st, buf1, sgn1, _) => (st, buf1, sgn1)

/-- canonicalize_headers from request.c: select entries (dropping a first
content-length entry), gnome sort case-insensitively, emit the canonical
block, a blank line, the semicolon joined signed headers list and a final
newline.  Returns the status, the buffer and the signed headers list. -/
def canonicalize_headers (maxlen : Nat) (buf : Buf)
    (curl_headers : List (List Char)) : S3Status × Buf × List Char :=
  let selected := skip_first_content_length curl_headers
  match hdr_walk maxlen buf [] none
      (general_gnome_sort headerle_nocase selected) with
  | (S3StatusOK, buf2, sgn) =>
    match string_append_char maxlen buf2 '\n' with
    | (S3StatusOK, buf3) =>
      match append_all_chars maxlen buf3 sgn with
      | (S3StatusOK, buf4) =>
        match string_append_char maxlen buf4 '\n' with
        | (S3StatusOK, buf5) => (S3StatusOK, buf5, sgn)
        | (_, buf5) => (S3StatusHeadersTooLong, buf5, sgn)
      | (_, buf4) => (S3StatusHeadersTooLong, buf4, sgn)
    | (_, buf3) => (S3StatusHeadersTooLong, buf3, sgn)
  | r => r

/-! ## canonicalize_query_params (V4) -/

/-- Entry gathering loop of canonicalize_query_params: walking the query
string, each ampersand contributes the suffix that follows it, rejecting an
ampersand followed by the string end, another ampersand or an equals sign.
The count check mirrors the source comparison of count against
sizeof(query_params), which is 8192 bytes for the 1024 pointer array. -/
def gather_params (cnt : Nat) : List Char → Except S3Status (List (List Char))
  | [] => Except.ok []
  | c :: rest =>
    if c = '&' then
      match rest with
      | [] => Except.error S3StatusBadMetaData
      | c2 :: _ =>
        if c2 = '&' ∨ c2 = '=' then Except.error S3StatusBadMetaData
        else if 8192 ≤ cnt then Except.error S3StatusQueryParamsTooLong
        else Except.map (fun t => rest :: t) (gather_params (cnt + 1) rest)
    else gather_params cnt rest

/-- Suffixes a successful gather run collects (one per ampersand). -/
def ampSuffixes : List Char → List (List Char)
  | [] => []
  | c :: rest => if c = '&' then rest :: ampSuffixes rest else ampSuffixes rest

/-- Segment of one query parameter entry: its bytes before the next
ampersand (the entries are suffix pointers into the query string). -/
def takeSeg (l : List Char) : List Char := l.takeWhile (fun c => c ≠ '&')

/-- Per-entry copy loop of string_append_params: copies the bytes of the
entry up to an ampersand or the end, recording whether an equals sign was
seen. -/
def append_param_chars (maxlen : Nat) (buf : Buf) (hasValue : Bool) :
    List Char → S3Status × Buf × Bool
  | [] => (S3StatusOK, buf, hasValue)
  | c :: rest =>
    if c = '&' then (S3StatusOK, buf, hasValue)
    else
      match string_append_char maxlen buf c with
      | (S3StatusOK, buf2) =>
        append_param_chars maxlen buf2 (hasValue || c == '=') rest
      | (_, buf2) => (S3StatusQueryParamsTooLong, buf2, hasValue)

/-- Loop of string_append_params over the entries: an ampersand separator
before every entry but the first, then the entry bytes, then an equals sign
if the entry had none. -/
def sap_go (maxlen : Nat) (buf : Buf) (isFirst : Bool) :
    List (List Char) → S3Status × Buf
  | [] => (S3StatusOK, buf)
  | p :: rest =>
    match
      (if isFirst then (S3StatusOK, buf)
       else
         match string_append_char maxlen buf '&' with
         | (S3StatusOK, buf1) => (S3StatusOK, buf1)
         | (_, buf1) => (S3StatusQueryParamsTooLong, buf1)) with
    | (S3StatusOK, buf1) =>
      match append_param_chars maxlen buf1 false p with
      | (S3StatusOK, buf2, hasValue) =>
        if hasValue then sap_go maxlen buf2 false rest
        else
          match string_append_char maxlen buf2 '=' with
          | (S3StatusOK, buf3) => sap_go maxlen buf3 false rest
          | (_, buf3) => (S3StatusQueryParamsTooLong, buf3)
      | (st, buf2, _) => (st, buf2)
    | (st, buf1) => (st, buf1)

/-- string_append_params from request.c. -/
def string_append_params (maxlen : Nat) (buf : Buf)
    (params : List (List Char)) : S3Status × Buf :=
  sap_go maxlen buf true params

/-- canonicalize_query_params from request.c: gather the entries (the whole
string is entry zero), gnome sort them with paramle, append them joined by
ampersands with empty values made explicit, and terminate with a newline. -/
def canonicalize_query_params (maxlen : Nat) (buf : Buf)
    (querys : List Char) : S3Status × Buf :=
  match gather_params 1 querys with
  | Except.error st => (st, buf)
  | Except.ok tail =>
    match string_append_params maxlen buf
        (general_gnome_sort paramle (querys :: tail)) with
    | (S3StatusOK, buf2) => string_append_char maxlen buf2 '\n'
    | r => r

/-! ## Specification-side definitions for the canonical query (claim C3).

These follow the wording of the spec: split the query string on the
ampersand, stable-sort the entries with the byte comparison whose
terminator set is the equals sign, the ampersand and NUL (which is exactly
what paramle computes), join with ampersands appending an equals sign to
entries without one, and terminate with a newline.  Reject two consecutive
ampersands, an ampersand followed by an equals sign, and a trailing
ampersand. -/

/-- Splitting a character list at every ampersand. -/
def splitAmp : List Char → List (List Char)
  | [] => [[]]
  | c :: rest =>
    if c = '&' then [] :: splitAmp rest
    else
      match splitAmp rest with
      | s :: ss => (c :: s) :: ss
      | [] => [[c]]

/-- Whether the two characters x y occur adjacently in the list. -/
def hasDuo (x y : Char) : List Char → Bool
  | a :: b :: rest => (a == x && b == y) || hasDuo x y (b :: rest)
  | _ => false

/-- The rejection condition stated by the spec: two consecutive ampersands,
an ampersand immediately followed by an equals sign, or a trailing
ampersand. -/
def specBadQuery (q : List Char) : Bool :=
  hasDuo '&' '&' q || hasDuo '&' '=' q || decide (q.getLast? = some '&')

/-- An entry without an equals sign receives one (empty value). -/
def fixParam (s : List Char) : List Char :=
  if '=' ∈ s then s else s ++ ['=']

/-- Join of the prepared entries with ampersands. -/
def specJoinParams : List (List Char) → List Char
  | [] => []
  | [s] => fixParam s
  | s :: rest => fixParam s ++ '&' :: specJoinParams rest

/-- The canonical query output the spec describes for an accepted string. -/
def specQueryOut (q : List Char) : List Char :=
  specJoinParams (stableSort paramle (splitAmp q)) ++ ['\n']

/-- Join of the prepared entries as emitted from the middle of the append
loop: a leading ampersand separates a nonempty remainder from what has
already been emitted when the entry is not the first. -/
def joinAmp : Bool → List (List Char) → List Char
  | _, [] => []
  | true, s :: rest => specJoinParams (s :: rest)
  | false, s :: rest => '&' :: specJoinParams (s :: rest)

/-! ## canonicalize_uri (V4) -/

/-- One check_and_skip step of canonicalize_uri. -/
def check_and_skip (c : Char) : Option (List Char) → Option (List Char)
  | some (x :: rest) => if x = c then some rest else none
  | _ => none

/-- One skip step of canonicalize_uri (consumes the byte when it matches). -/
def skip_opt (c : Char) : Option (List Char) → Option (List Char)
  | some (x :: rest) => if x = c then some rest else some (x :: rest)
  | o => o

/-- Scheme parsing prelude of canonicalize_uri: h t t p, an optional s, then
colon slash slash; none means S3StatusErrorInvalidURI. -/
def strip_scheme (uri : List Char) : Option (List Char) :=
  check_and_skip '/' (check_and_skip '/' (check_and_skip ':' (skip_opt 's'
    (check_and_skip 'p' (check_and_skip 't' (check_and_skip 't'
      (check_and_skip 'h' (some uri))))))))

/-- Path copy loop of canonicalize_uri: copies bytes up to a question mark
or the end, reporting the remainder. -/
def copy_path (maxlen : Nat) (buf : Buf) :
    List Char → S3Status × Buf × List Char
  | [] => (S3StatusOK, buf, [])
  | c :: rest =>
    if c = '?' then (S3StatusOK, buf, c :: rest)
    else
      match string_append_char maxlen buf c with
      | (S3StatusOK, buf2) => copy_path maxlen buf2 rest
      | (_, buf2) => (S3StatusUriTooLong, buf2, c :: rest)

/-- canonicalize_uri from request.c: strip the scheme, skip the host up to
the first slash, copy the path, newline, then either the canonical query
parameters or a second newline for an empty query. -/
def canonicalize_uri (maxlen : Nat) (buf : Buf) (uri : List Char) :
    S3Status × Buf :=
  match strip_scheme uri with
  | none => (S3StatusErrorInvalidURI, buf)
  | some afterScheme =>
    match copy_path maxlen buf (afterScheme.dropWhile (fun c => c ≠ '/')) with
    | (S3StatusOK, buf2, rest) =>
      match string_append_char maxlen buf2 '\n' with
      | (S3StatusOK, buf3) =>
        match rest with
        | '?' :: qs => canonicalize_query_params maxlen buf3 qs
        | _ =>
          match string_append_char maxlen buf3 '\n' with
          | (S3StatusOK, buf4) => (S3StatusOK, buf4)
          | (_, buf4) => (S3StatusUriTooLong, buf4)
      | (_, buf3) => (S3StatusUriTooLong, buf3)
    | (st, buf2, _) => (st, buf2)

/-! ## TLS SubjectAltName matching (claim C4) -/

/-- Per-entry acceptance test of matches_subject_alt_name from request.c.
The asn1bytes list carries the raw ASN.1 DNS entry bytes (possibly with
embedded NUL); its C string view stops at the first NUL.  The entry is
skipped when the ASN.1 length differs from the C string length; else it
matches on case-insensitive equality with the hostname, or by the single
leading wildcard label rule when it is longer than two bytes and starts
with an asterisk and a dot. -/
def matches_subject_alt_name_entry (hostname asn1bytes : List Char) : Bool :=
  let dns_name := asn1bytes.takeWhile (fun c => c ≠ nulChar)
  if asn1bytes.length ≠ dns_name.length then false
  else if hostname.length = dns_name.length ∧
      strncasecmpZ hostname dns_name hostname.length = 0 then true
  else if 2 < dns_name.length ∧ dns_name.getD 0 nulChar = '*' ∧
      dns_name.getD 1 nulChar = '.' then
    let dns_suffix := dns_name.drop 1
    match strchrSuffix '.' hostname with
    | some target_suffix =>
      decide (strcasecmpZ target_suffix dns_suffix = 0)
    | none => false
  else false

/-- Specification-side acceptance predicate for claim C4, following the
claim wording: the entry must be free of embedded NUL, and either equal the
hostname case-insensitively, or begin with an asterisk and dot with its
suffix from the dot equal (case-insensitively) to the hostname portion from
its first dot onward. -/
def san_claim_accepts (hostname asn1bytes : List Char) : Bool :=
  let dns := asn1bytes.takeWhile (fun c => c ≠ nulChar)
  if asn1bytes.length ≠ dns.length then false
  else if dns.map lowerc == hostname.map lowerc then true
  else
    match dns with
    | '*' :: '.' :: rest =>
      (match strchrSuffix '.' hostname with
       | some ts => ts.map lowerc == ('.' :: rest).map lowerc
       | none => false)
    | _ => false

/-- Amended specification-side predicate for claim C4: like san_claim_accepts
but with the guard of the source that the wildcard branch only applies when
the entry is longer than the two bytes of the asterisk and the dot. -/
def san_amended_accepts (hostname asn1bytes : List Char) : Bool :=
  let dns := asn1bytes.takeWhile (fun c => c ≠ nulChar)
  if asn1bytes.length ≠ dns.length then false
  else if dns.map lowerc = hostname.map lowerc then true
  else if 2 < dns.length ∧ dns.take 2 = ['*', '.'] then
    match strchrSuffix '.' hostname with
    | some ts => decide (ts.map lowerc = (dns.drop 1).map lowerc)
    | none => false
  else false

/-! ## V2 Authorization string to sign (claim C1) -/

inductive HttpRequestType where
  | HttpRequestTypeGET
  | HttpRequestTypeHEAD
  | HttpRequestTypePUT
  | HttpRequestTypeCOPY
  | HttpRequestTypeDELETE
  | HttpRequestTypePOST
  deriving DecidableEq

open HttpRequestType

/-- http_request_type_to_verb from request.c. -/
def http_request_type_to_verb : HttpRequestType → List Char
  | HttpRequestTypePOST => ("POST".toList)
  | HttpRequestTypeGET => ("GET".toList)
  | HttpRequestTypeHEAD => ("HEAD".toList)
  | HttpRequestTypePUT => ("PUT".toList)
  | HttpRequestTypeCOPY => ("PUT".toList)
  | HttpRequestTypeDELETE => ("DELETE".toList)

/-- String-to-sign assembly of compose_auth_header from request.c (the
buffer is sized so that the snprintf appends never truncate): the verb, the
md5 header value (the header bytes behind the 13 byte prefix Content-MD5
and the separating space, when the header is present), the content type
value (behind its 14 byte prefix) likewise, an empty date line, then the
canonicalized amz headers and the canonicalized resource. -/
def compose_auth_header_signbuf (requestType : HttpRequestType)
    (md5Header contentTypeHeader canonicalizedAmzHeaders
      canonicalizedResource : List Char) : List Char :=
  http_request_type_to_verb requestType ++ ['\n']
    ++ (if md5Header ≠ [] then md5Header.drop 13 else []) ++ ['\n']
    ++ (if contentTypeHeader ≠ [] then contentTypeHeader.drop 14 else [])
    ++ ['\n']
    ++ ['\n']
    ++ canonicalizedAmzHeaders ++ canonicalizedResource

/-! ## Range header (claim C7) -/

/-- Decimal digits of a natural number, as printf would emit them. -/
def decDigits (n : Nat) : List Char := Nat.toDigits 10 n

/-- Range header portion of compose_standard_headers from request.c.  The
startByte and byteCount fields are 64 bit unsigned; the sum emitted for a
bounded range is computed in that width. -/
def compose_standard_headers_range (startByte byteCount : Nat) : List Char :=
  if startByte ≠ 0 ∨ byteCount ≠ 0 then
    if byteCount ≠ 0 then
      ("Range: bytes=".toList) ++ decDigits startByte ++ ['-']
        ++ decDigits ((startByte + byteCount - 1) % (2 ^ 64))
    else
      ("Range: bytes=".toList) ++ decDigits startByte ++ ['-']
  else []

/-! ## Final status classification (claim C6) -/

/-- Status classification of request_finish from request.c.  The XML error
parser is external to the engine; parsedStatus stands for the status
error_parser_convert_status installs (S3StatusOK when no server error
document was parsed). -/
def request_finish_status (midStatus parsedStatus : S3Status)
    (httpResponseCode : Int) : S3Status :=
  if midStatus ≠ S3StatusOK then midStatus
  else if parsedStatus ≠ S3StatusOK then parsedStatus
  else if httpResponseCode < 200 ∨ 299 < httpResponseCode then
    if httpResponseCode = 0 then S3StatusConnectionFailed
    else if httpResponseCode = 100 then S3StatusOK
    else if httpResponseCode = 301 then S3StatusErrorPermanentRedirect
    else if httpResponseCode = 307 then S3StatusHttpErrorMovedTemporarily
    else if httpResponseCode = 400 then S3StatusHttpErrorBadRequest
    else if httpResponseCode = 403 then S3StatusHttpErrorForbidden
    else if httpResponseCode = 404 then S3StatusHttpErrorNotFound
    else if httpResponseCode = 405 then S3StatusErrorMethodNotAllowed
    else if httpResponseCode = 409 then S3StatusHttpErrorConflict
    else if httpResponseCode = 411 then S3StatusErrorMissingContentLength
    else if httpResponseCode = 412 then S3StatusErrorPreconditionFailed
    else if httpResponseCode = 416 then S3StatusErrorInvalidRange
    else if httpResponseCode = 500 then S3StatusErrorInternalError
    else if httpResponseCode = 501 then S3StatusErrorNotImplemented
    else if httpResponseCode = 503 then S3StatusErrorSlowDown
    else S3StatusHttpErrorUnknown
  else S3StatusOK

/-! ## Region configuration (claim C9) -/

/-- S3_set_region_name from request.c.  The bound S3_MAX_HOSTNAME_SIZE is
declared in the public header, which is not part of src/, so it is kept as
a parameter; snprintf writes the truncated value into the global before the
length test runs. -/
def S3_set_region_name (maxHostnameSize : Nat) (stored : List Char)
    (regionName : Option (List Char)) : S3Status × List Char :=
  match regionName with
  | none => (S3StatusOK, stored)
  | some name =>
    if maxHostnameSize ≤ name.length then
      (S3StatusUriTooLong, name.take (maxHostnameSize - 1))
    else (S3StatusOK, name.take (maxHostnameSize - 1))

/-! ## Outbound body read callback (claim C5) -/

/-- Per-request state that curl_read_func consults and updates. -/
structure ReadState where
  status : S3Status
  toS3CallbackBytesRemaining : Int
  hasToS3Callback : Bool
  deriving DecidableEq

/-- Result of one read callback invocation: either an abort indication
(CURL_READFUNC_ABORT) or a byte count handed to the HTTP client. -/
inductive ReadRes where
  | readAbort
  | readBytes (n : Int)
  deriving DecidableEq

open ReadRes

/-- curl_read_func from request.c.  The callback cb stands for
toS3Callback; it receives the clamped length and returns a byte count (or
a negative value to abort). -/
def curl_read_func (st : ReadState) (len : Int) (cb : Int → Int) :
    ReadRes × ReadState :=
  if st.status ≠ S3StatusOK then (readAbort, st)
  else if st.hasToS3Callback = false ∨ st.toS3CallbackBytesRemaining = 0 then
    (readBytes 0, st)
  else
    let len2 := if st.toS3CallbackBytesRemaining < len then
      st.toS3CallbackBytesRemaining else len
    let ret := cb len2
    if ret < 0 then
      (readAbort, { st with status := S3StatusAbortedByCallback })
    else
      let ret2 := if st.toS3CallbackBytesRemaining < ret then
        st.toS3CallbackBytesRemaining else ret
      (readBytes ret2,
       { st with toS3CallbackBytesRemaining :=
          st.toS3CallbackBytesRemaining - ret2 })

/-- Length actually offered to the callback by curl_read_func (0 when the
callback is not invoked at all): the length request of the HTTP client
capped at the remaining send counter. -/
def read_offer (st : ReadState) (len : Int) : Int :=
  if st.status ≠ S3StatusOK then 0
  else if st.hasToS3Callback = false ∨ st.toS3CallbackBytesRemaining = 0 then 0
  else if st.toS3CallbackBytesRemaining < len then
    st.toS3CallbackBytesRemaining else len

/-- Record of one invocation: the remaining counter before it, the offered
length, and the result. -/
structure ReadEvent where
  remBefore : Int
  offered : Int
  res : ReadRes
  deriving DecidableEq

/-- Repeated invocations of curl_read_func over one request: each trace
element carries the length the HTTP client asked for and the callback
behaviour for that invocation. -/
def run_reads (st : ReadState) :
    List (Int × (Int → Int)) → ReadState × List ReadEvent
  | [] => (st, [])
  | (len, cb) :: rest =>
    let r := curl_read_func st len cb
    let e : ReadEvent :=
      { remBefore := st.toS3CallbackBytesRemaining,
        offered := read_offer st len, res := r.1 }
    let rr := run_reads r.2 rest
    (rr.1, e :: rr.2)

/-- Sum of the byte counts consumed from the callback over a trace. -/
def consumedBytes : List ReadEvent → Int
  | [] => 0
  | e :: rest =>
    (match e.res with
     | readBytes n => n
     | readAbort => 0) + consumedBytes rest

/-! ### Theorems -/

/-! #### Character facts -/

theorem char_eq_of_toNat_eq {a b : Char} (h : a.toNat = b.toNat) : a = b := by
  apply Char.eq_of_val_eq
  apply UInt32.eq_of_toBitVec_eq
  apply BitVec.eq_of_toNat_eq
  simpa using h

theorem char_lt_iff (a b : Char) : a < b ↔ a.toNat < b.toNat := Iff.rfl

theorem char_le_iff (a b : Char) : a ≤ b ↔ a.toNat ≤ b.toNat := Iff.rfl

theorem toNat_eq_zero_iff (c : Char) : c.toNat = 0 ↔ c = nulChar := by
  constructor
  · intro h
    apply char_eq_of_toNat_eq
    simpa using h
  · intro h
    subst h
    decide

theorem lowerc_toNat_of_upper (c : Char) (h1 : 'A' ≤ c) (h2 : c ≤ 'Z') :
    (lowerc c).toNat = c.toNat + 32 := by
  have hA : (65 : Nat) ≤ c.toNat := h1
  have hZ : c.toNat ≤ 90 := h2
  have hv : Nat.isValidChar (c.toNat + 32) := Or.inl (by omega)
  simp only [lowerc, if_pos (And.intro h1 h2)]
  simp only [Char.ofNat, hv, dif_pos]
  simp [Char.ofNatAux, Char.toNat, UInt32.toNat, UInt32.ofNatTruncate,
    BitVec.toNat_ofNatLt]

theorem lowerc_toNat_ne_zero (c : Char) (h : c ≠ nulChar) :
    (lowerc c).toNat ≠ 0 := by
  by_cases hu : 'A' ≤ c ∧ c ≤ 'Z'
  · rw [lowerc_toNat_of_upper c hu.1 hu.2]
    omega
  · have : lowerc c = c := by simp [lowerc, hu]
    rw [this]
    intro h0
    exact h ((toNat_eq_zero_iff c).mp h0)

/-! #### The lexicographic helper order -/

theorem kltb_cons_iff (x y : Nat) (xs ys : List Nat) :
    kltb (x :: xs) (y :: ys) = true ↔
      x < y ∨ (x = y ∧ kltb xs ys = true) := by
  simp only [kltb]
  split_ifs with h1 h2
  · simp [h1]
  · constructor
    · intro h
      exact absurd h (by simp)
    · intro h
      rcases h with h | ⟨h, _⟩ <;> omega
  · have hxy : x = y := by omega
    simp [hxy]

theorem kltb_irrefl : ∀ l : List Nat, ¬ kltb l l = true := by
  intro l
  induction l with
  | nil => simp [kltb]
  | cons x xs ih =>
    rw [kltb_cons_iff]
    rintro (h | ⟨-, h⟩)
    · omega
    · exact ih h

theorem kltb_asymm : ∀ a b : List Nat,
    kltb a b = true → kltb b a = true → False := by
  intro a
  induction a with
  | nil =>
    intro b hab hba
    cases b with
    | nil => simp [kltb] at hab
    | cons y ys => simp [kltb] at hba
  | cons x xs ih =>
    intro b hab hba
    cases b with
    | nil => simp [kltb] at hab
    | cons y ys =>
      rw [kltb_cons_iff] at hab hba
      rcases hab with h1 | ⟨h1, k1⟩ <;> rcases hba with h2 | ⟨h2, k2⟩
      · omega
      · omega
      · omega
      · exact ih ys k1 k2

theorem kltb_trans : ∀ a b c : List Nat,
    kltb a b = true → kltb b c = true → kltb a c = true := by
  intro a
  induction a with
  | nil =>
    intro b c hab hbc
    cases b with
    | nil => simp [kltb] at hab
    | cons y ys =>
      cases c with
      | nil => simp [kltb] at hbc
      | cons z zs => simp [kltb]
  | cons x xs ih =>
    intro b c hab hbc
    cases b with
    | nil => simp [kltb] at hab
    | cons y ys =>
      cases c with
      | nil => simp [kltb] at hbc
      | cons z zs =>
        rw [kltb_cons_iff] at hab hbc ⊢
        rcases hab with h1 | ⟨h1, k1⟩ <;> rcases hbc with h2 | ⟨h2, k2⟩
        · exact Or.inl (by omega)
        · exact Or.inl (by omega)
        · exact Or.inl (by omega)
        · exact Or.inr ⟨by omega, ih ys zs k1 k2⟩

theorem kltb_trichot : ∀ a b : List Nat,
    kltb a b = true ∨ a = b ∨ kltb b a = true := by
  intro a
  induction a with
  | nil =>
    intro b
    cases b with
    | nil => simp
    | cons y ys => exact Or.inl (by simp [kltb])
  | cons x xs ih =>
    intro b
    cases b with
    | nil => exact Or.inr (Or.inr (by simp [kltb]))
    | cons y ys =>
      rcases Nat.lt_trichotomy x y with h | h | h
      · exact Or.inl ((kltb_cons_iff x y xs ys).mpr (Or.inl h))
      · rcases ih ys with h2 | h2 | h2
        · exact Or.inl ((kltb_cons_iff x y xs ys).mpr (Or.inr ⟨h, h2⟩))
        · exact Or.inr (Or.inl (by rw [h, h2]))
        · exact Or.inr (Or.inr
            ((kltb_cons_iff y x ys xs).mpr (Or.inr ⟨h.symm, h2⟩)))
      · exact Or.inr (Or.inr ((kltb_cons_iff y x ys xs).mpr (Or.inl h)))

theorem kltb_cons_self (x : Nat) (as bs : List Nat) :
    kltb (x :: as) (x :: bs) = kltb as bs := by
  simp [kltb]

/-! #### Key characterisations of headerle and paramle -/

theorem headerle_iff : ∀ a b : List Char,
    headerle a b = true ↔ kltb (hkey a) (hkey b) = true := by
  intro a
  induction a with
  | nil =>
    intro b
    cases b with
    | nil => simp [headerle, hkey, kltb]
    | cons c2 t2 =>
      by_cases h2 : c2 = ':'
      · simp [headerle, hkey, h2, kltb]
      · simp [headerle, hkey, h2, kltb_cons_iff]
  | cons c1 t1 ih =>
    intro b
    cases b with
    | nil =>
      by_cases h1 : c1 = ':'
      · simp [headerle, hkey, h1, kltb]
      · simp [headerle, hkey, h1, kltb_cons_iff]
    | cons c2 t2 =>
      by_cases h1 : c1 = ':'
      · by_cases h2 : c2 = ':'
        · simp [headerle, hkey, h1, h2, kltb]
        · simp [headerle, hkey, h1, h2, kltb]
      · by_cases h2 : c2 = ':'
        · simp [headerle, hkey, h1, h2, kltb, show ¬ c1.toNat + 2 < 0 by omega]
        · by_cases hlt : c2 < c1
          · have hn : c2.toNat < c1.toNat := (char_lt_iff c2 c1).mp hlt
            simp [headerle, hkey, h1, h2, hlt, kltb,
              show ¬ c1 < c2 from fun hc =>
                absurd ((char_lt_iff c1 c2).mp hc) (by omega),
              show ¬ c1.toNat + 2 < c2.toNat + 2 by omega,
              show c2.toNat + 2 < c1.toNat + 2 by omega]
          · by_cases hgt : c2 > c1
            · have hn : c1.toNat < c2.toNat := (char_lt_iff c1 c2).mp hgt
              simp [headerle, hkey, h1, h2, hlt, hgt, kltb,
                show c1.toNat + 2 < c2.toNat + 2 by omega]
            · have he : c1 = c2 := le_antisymm (not_lt.mp hlt) (not_lt.mp hgt)
              subst he
              simp [headerle, hkey, h1, hlt, kltb_cons_self]
              exact Bool.coe_iff_coe.mp (ih t2)

theorem paramle_iff : ∀ a b : List Char,
    paramle a b = true ↔ kltb (pkey b) (pkey a) = false := by
  intro a
  induction a with
  | nil =>
    intro b
    cases b with
    | nil => simp [paramle, pkey, kltb]
    | cons c2 t2 =>
      by_cases h2 : c2 = '=' ∨ c2 = '&'
      · simp [paramle, pkey, h2, kltb]
      · simp [paramle, pkey, h2, kltb, show ¬ c2.toNat + 1 < 0 by omega]
  | cons c1 t1 ih =>
    intro b
    by_cases h1 : c1 = '=' ∨ c1 = '&'
    · cases b with
      | nil => simp [paramle, pkey, h1, kltb]
      | cons c2 t2 =>
        by_cases h2 : c2 = '=' ∨ c2 = '&'
        · simp [paramle, pkey, h1, h2, kltb]
        · simp [paramle, pkey, h1, h2, kltb, show ¬ c2.toNat + 1 < 0 by omega]
    · cases b with
      | nil =>
        simp [paramle, pkey, h1, kltb, show ¬ c1.toNat + 1 < 0 by omega]
      | cons c2 t2 =>
        by_cases h2 : c2 = '=' ∨ c2 = '&'
        · simp [paramle, pkey, h1, h2, kltb, show ¬ c1.toNat + 1 < 0 by omega]
        · by_cases hlt : c2 < c1
          · have hn : c2.toNat < c1.toNat := (char_lt_iff c2 c1).mp hlt
            simp [paramle, pkey, h1, h2, hlt, kltb,
              show ¬ c1 < c2 from fun hc =>
                absurd ((char_lt_iff c1 c2).mp hc) (by omega),
              show c2.toNat + 1 < c1.toNat + 1 by omega]
          · by_cases hgt : c2 > c1
            · have hn : c1.toNat < c2.toNat := (char_lt_iff c1 c2).mp hgt
              simp [paramle, pkey, h1, h2, hlt, hgt, kltb,
                show ¬ c2.toNat + 1 < c1.toNat + 1 by omega,
                show c1.toNat + 1 < c2.toNat + 1 by omega]
            · have he : c1 = c2 := le_antisymm (not_lt.mp hlt) (not_lt.mp hgt)
              subst he
              simp [paramle, pkey, h1, hlt, kltb_cons_self]
              exact Bool.coe_iff_coe.mp (by simpa using ih t2)

/-! #### Derived order facts for the two comparators -/

theorem headerle_trans (a b c : List Char) (hab : headerle a b = true)
    (hbc : headerle b c = true) : headerle a c = true :=
  (headerle_iff a c).mpr
    (kltb_trans _ _ _ ((headerle_iff a b).mp hab) ((headerle_iff b c).mp hbc))

theorem headerle_asymm (a b : List Char) (hab : headerle a b = true)
    (hba : headerle b a = true) : False :=
  kltb_asymm _ _ ((headerle_iff a b).mp hab) ((headerle_iff b a).mp hba)

theorem headerle_total_of_ne (a b : List Char) (h : hkey a ≠ hkey b) :
    headerle a b = true ∨ headerle b a = true := by
  rcases kltb_trichot (hkey a) (hkey b) with hk | hk | hk
  · exact Or.inl ((headerle_iff a b).mpr hk)
  · exact absurd hk h
  · exact Or.inr ((headerle_iff b a).mpr hk)

theorem paramle_eq_keys (a b : List Char) :
    paramle a b = !kltb (pkey b) (pkey a) := by
  cases hk : kltb (pkey b) (pkey a) with
  | false => simp [(paramle_iff a b).mpr hk]
  | true =>
    simp only [Bool.not_true]
    cases hp : paramle a b with
    | false => rfl
    | true => exact absurd ((paramle_iff a b).mp hp) (by simp [hk])

theorem paramle_trans (a b c : List Char) (hab : paramle a b = true)
    (hbc : paramle b c = true) : paramle a c = true := by
  rw [paramle_iff] at hab hbc ⊢
  cases hk : kltb (pkey c) (pkey a) with
  | false => rfl
  | true =>
    exfalso
    rcases kltb_trichot (pkey a) (pkey b) with h1 | h1 | h1
    · rcases kltb_trichot (pkey b) (pkey c) with h2 | h2 | h2
      · exact kltb_irrefl _ (kltb_trans _ _ _ (kltb_trans _ _ _ hk h1) h2)
      · rw [h2] at h1
        exact kltb_irrefl _ (kltb_trans _ _ _ hk h1)
      · exact absurd h2 (by simp [hbc])
    · rw [h1] at hk
      rcases kltb_trichot (pkey b) (pkey c) with h2 | h2 | h2
      · exact kltb_irrefl _ (kltb_trans _ _ _ hk h2)
      · rw [h2] at hk
        exact kltb_irrefl _ hk
      · exact absurd h2 (by simp [hbc])
    · exact absurd h1 (by simp [hab])

theorem paramle_total (a b : List Char) :
    paramle a b = true ∨ paramle b a = true := by
  cases hk : kltb (pkey b) (pkey a) with
  | false => exact Or.inl ((paramle_iff a b).mpr hk)
  | true =>
    cases hk2 : kltb (pkey a) (pkey b) with
    | false => exact Or.inr ((paramle_iff b a).mpr hk2)
    | true => exact absurd hk (by intro h; exact kltb_asymm _ _ h hk2)

theorem pkey_takeSeg : ∀ l : List Char, pkey (takeSeg l) = pkey l := by
  intro l
  induction l with
  | nil => rfl
  | cons c rest ih =>
    by_cases hc : c = '&'
    · simp [takeSeg, hc, pkey]
    · by_cases he : c = '='
      · simp [takeSeg, hc, he, pkey]
      · simp only [takeSeg, ne_eq, decide_not] at ih ⊢
        rw [List.takeWhile_cons]
        simp [hc, he, pkey, ih]

theorem paramle_takeSeg (a b : List Char) :
    paramle (takeSeg a) (takeSeg b) = paramle a b := by
  rw [paramle_eq_keys, paramle_eq_keys, pkey_takeSeg, pkey_takeSeg]

/-! #### List access and adjacent swap -/

theorem getD_append_cons (A : List α) (b : α) (C : List α) (d : α) :
    (A ++ b :: C).getD A.length d = b := by
  induction A with
  | nil => rfl
  | cons x xs ih => simpa using ih

theorem swap_back_append (Q : List α) (z m : α) (rest : List α) :
    swap_back (Q ++ z :: m :: rest) Q.length = Q ++ m :: z :: rest := by
  induction Q with
  | nil => rfl
  | cons x xs ih => simpa [swap_back] using ih

/-! #### Chains under a transitive boolean comparison -/

theorem chain_head_rel (le : α → α → Bool)
    (Htrans : ∀ a b c, le a b = true → le b c = true → le a c = true) :
    ∀ (t : List α) (x y : α),
      List.Chain' (fun a b => le a b = true) (x :: t) → y ∈ t →
        le x y = true := by
  intro t
  induction t with
  | nil =>
    intro x y _ hy
    simp at hy
  | cons c t2 ih =>
    intro x y h hy
    have h1 : le x c = true := (List.chain'_cons.mp h).1
    rcases List.mem_cons.mp hy with rfl | hy2
    · exact h1
    · exact Htrans _ _ _ h1 (ih c y (List.chain'_cons.mp h).2 hy2)

theorem chain_concat_rel (le : α → α → Bool)
    (Htrans : ∀ a b c, le a b = true → le b c = true → le a c = true) :
    ∀ (Q : List α) (z : α),
      List.Chain' (fun a b => le a b = true) (Q ++ [z]) →
        ∀ y ∈ Q, le y z = true := by
  intro Q
  induction Q with
  | nil =>
    intro z _ y hy
    simp at hy
  | cons x xs ih =>
    intro z h y hy
    rcases List.mem_cons.mp hy with rfl | hy2
    · exact chain_head_rel le Htrans (xs ++ [z]) y z h (by simp)
    · exact ih z (List.Chain'.tail h) y hy2

/-! #### Shape of stableInsert on a sorted decomposition -/

theorem stableInsert_front (le : α → α → Bool) (m : α) (P2 : List α)
    (h : ∀ z ∈ P2, le z m = false) : stableInsert le m P2 = m :: P2 := by
  cases P2 with
  | nil => rfl
  | cons z zs => simp [stableInsert, h z (by simp)]

theorem stableInsert_middle (le : α → α → Bool) (m : α) :
    ∀ (P1 P2 : List α), (∀ y ∈ P1, le y m = true) →
      (∀ z ∈ P2, le z m = false) →
      stableInsert le m (P1 ++ P2) = P1 ++ m :: P2 := by
  intro P1
  induction P1 with
  | nil =>
    intro P2 _ h2
    simpa using stableInsert_front le m P2 h2
  | cons x xs ih =>
    intro P2 h1 h2
    have hx : le x m = true := h1 x (by simp)
    simp only [List.cons_append, stableInsert, hx, if_pos, List.append_eq]
    rw [ih P2 (fun y hy => h1 y (by simp [hy])) h2]

/-! #### The gnome loop computes the stable insertion sort -/

theorem gnome_step_eq [Inhabited α] (le : α → α → Bool)
    (Htrans : ∀ a b c, le a b = true → le b c = true → le a c = true)
    (N : Nat) :
    ∀ (fuel : Nat) (P1 : List α) (m : α) (P2 R : List α),
      P1.length + 1 + P2.length + R.length = N →
      (N + 2) * R.length + P1.length + 1 < fuel →
      List.Chain' (fun a b => le a b = true) (P1 ++ P2) →
      (∀ z ∈ P2, le z m = false) →
      List.Pairwise (fun a b => le a b = true ∨ le b a = true)
        (P1 ++ m :: (P2 ++ R)) →
      gnome_step le fuel (P1 ++ m :: (P2 ++ R)) P1.length
          (P1.length + P2.length) =
        stableInsertAll le (stableInsert le m (P1 ++ P2)) R := by
  intro fuel
  induction fuel with
  | zero =>
    intro P1 m P2 R hN hfuel
    omega
  | succ fuel ih =>
    intro P1 m P2 R hN hfuel hchain hP2 htot
    have hlistlen : (P1 ++ m :: (P2 ++ R)).length
        = P1.length + 1 + P2.length + R.length := by
      simp
      omega
    have hlen : P1.length < (P1 ++ m :: (P2 ++ R)).length := by
      rw [hlistlen]
      omega
    have hm : (P1 ++ m :: (P2 ++ R)).getD P1.length default = m :=
      getD_append_cons P1 m (P2 ++ R) default
    -- facts from the pairwise totality: m relates to every later element
    have htot2 := (List.pairwise_append.mp
      (by simpa using htot : List.Pairwise
        (fun a b => le a b = true ∨ le b a = true)
        (P1 ++ (m :: (P2 ++ R))))).2.1
    have hmz : ∀ z ∈ P2, le m z = true := by
      intro z hz
      have := (List.pairwise_cons.mp htot2).1 z (by simp [hz])
      rcases this with h | h
      · exact h
      · exact absurd h (by simp [hP2 z hz])
    rcases List.eq_nil_or_concat P1 with rfl | ⟨Q, z, hQ⟩
    · -- the element under inspection sits at index 0: the loop advances
      have hS : stableInsert le m ([] ++ P2) = m :: P2 := by
        simpa using stableInsert_front le m P2 hP2
      have hSchain : List.Chain' (fun a b => le a b = true) (m :: P2) := by
        rw [List.chain'_cons']
        refine ⟨?_, by simpa using hchain⟩
        intro b hb
        cases P2 with
        | nil => simp at hb
        | cons p ps =>
          simp at hb
          subst hb
          exact hmz p (by simp)
      simp only [List.nil_append, List.length_nil, Nat.zero_add] at hfuel ⊢
      rw [gnome_step]
      rw [if_pos (by simpa using hlen)]
      rw [if_pos (Or.inl rfl)]
      cases R with
      | nil =>
        -- nothing left: one more guard test ends the loop
        cases fuel with
        | zero => omega
        | succ fuel2 =>
          rw [gnome_step]
          rw [if_neg (by simp)]
          simp only [stableInsertAll]
          rw [show stableInsert le m P2 = m :: P2 from
            stableInsert_front le m P2 hP2]
          simp
      | cons x R2 =>
        have hN2 : P2.length + R2.length + 2 = N := by
          simp at hN
          omega
        have hgoal := ih (m :: P2) x [] R2 (by simp; omega)
          (by
            have hexp : (N + 2) * (R2.length + 1)
                = (N + 2) * R2.length + (N + 2) := Nat.mul_succ _ _
            have hflen : (x :: R2).length = R2.length + 1 := by simp
            rw [hflen] at hfuel
            simp only [List.length_cons, List.length_nil]
            omega)
          (by simpa using hSchain)
          (by simp)
          (by simpa using htot)
        rw [show stableInsert le m P2 = m :: P2 from
          stableInsert_front le m P2 hP2]
        simp only [stableInsertAll]
        simp only [List.append_nil, List.nil_append, List.length_nil,
          List.length_cons, Nat.add_zero, List.cons_append] at hgoal
        exact hgoal
    · -- a nonempty prefix: test the previous element against m
      subst hQ
      rw [List.concat_eq_append] at *
      have hmprev : ((Q ++ [z]) ++ m :: (P2 ++ R)).getD
          ((Q ++ [z]).length - 1) default = z := by
        have h1 : (Q ++ [z]) ++ m :: (P2 ++ R)
            = Q ++ z :: m :: (P2 ++ R) := by simp
        have h2 : (Q ++ [z]).length - 1 = Q.length := by simp
        rw [h1, h2]
        exact getD_append_cons Q z (m :: (P2 ++ R)) default
      rw [gnome_step]
      rw [if_pos hlen]
      by_cases htest : le z m = true
      · -- sorted so far: advance to the next unsorted element
        rw [if_pos (by
          right
          rw [hmprev, hm]
          exact htest)]
        have hchainQ : List.Chain' (fun a b => le a b = true) (Q ++ [z]) :=
          (List.chain'_append.mp (by simpa using hchain)).1
        have hP1m : ∀ y ∈ Q ++ [z], le y m = true := by
          intro y hy
          rcases List.mem_append.mp hy with hy1 | hy1
          · exact Htrans _ _ _ (chain_concat_rel le Htrans Q z hchainQ y hy1)
              htest
          · simp at hy1
            subst hy1
            exact htest
        have hS : stableInsert le m ((Q ++ [z]) ++ P2)
            = (Q ++ [z]) ++ m :: P2 :=
          stableInsert_middle le m (Q ++ [z]) P2 hP1m hP2
        have hSchain : List.Chain' (fun a b => le a b = true)
            ((Q ++ [z]) ++ m :: P2) := by
          rw [List.chain'_append]
          refine ⟨hchainQ, ?_, ?_⟩
          · rw [List.chain'_cons']
            refine ⟨?_, (List.chain'_append.mp hchain).2.1⟩
            intro b hb
            cases P2 with
            | nil => simp at hb
            | cons p ps =>
              simp at hb
              subst hb
              exact hmz p (by simp)
          · intro a ha b hb
            simp at ha hb
            subst ha
            subst hb
            exact htest
        cases R with
        | nil =>
          cases fuel with
          | zero => omega
          | succ fuel2 =>
            rw [gnome_step]
            rw [if_neg (by
              rw [hlistlen]
              simp
              omega)]
            rw [hS]
            simp [stableInsertAll]
        | cons x R2 =>
          have hNlin : Q.length + 2 + P2.length + R2.length + 1 = N := by
            simp at hN
            omega
          have hfuel2 : (N + 2) * R2.length
              + ((Q ++ [z]) ++ m :: P2).length + 1 < fuel := by
            have hexp : (N + 2) * (R2.length + 1)
                = (N + 2) * R2.length + (N + 2) := Nat.mul_succ _ _
            have hflen : (x :: R2).length = R2.length + 1 := by simp
            rw [hflen] at hfuel
            simp only [List.length_append, List.length_cons] at hfuel ⊢
            omega
          have hgoal := ih ((Q ++ [z]) ++ m :: P2) x [] R2
            (by
              simp
              omega)
            hfuel2 (by simpa using hSchain) (by simp)
            (by
              have heq : ((Q ++ [z]) ++ m :: P2) ++ x :: ([] ++ R2)
                  = (Q ++ [z]) ++ m :: (P2 ++ x :: R2) := by simp
              rw [heq]
              exact htot)
          rw [hS]
          show gnome_step le fuel ((Q ++ [z]) ++ m :: (P2 ++ x :: R2))
              ((Q ++ [z]).length + P2.length + 1)
              ((Q ++ [z]).length + P2.length + 1) =
            stableInsertAll le ((Q ++ [z]) ++ m :: P2) (x :: R2)
          simp only [stableInsertAll]
          have heq1 : ((Q ++ [z]) ++ m :: P2) ++ x :: ([] ++ R2)
              = (Q ++ [z]) ++ m :: (P2 ++ x :: R2) := by simp
          have heq3 : ((Q ++ [z]) ++ m :: P2).length
              = (Q ++ [z]).length + P2.length + 1 := by
            simp
            omega
          rw [heq1, heq3] at hgoal
          simp only [List.append_nil, List.length_nil, Nat.add_zero] at hgoal
          exact hgoal
      · -- out of order: swap m one slot backwards
        rw [if_neg (by
          push_neg
          constructor
          · simp
          · rw [hmprev, hm]
            exact htest)]
        have hswap : swap_back ((Q ++ [z]) ++ m :: (P2 ++ R))
            ((Q ++ [z]).length - 1) = Q ++ m :: ((z :: P2) ++ R) := by
          have h1 : (Q ++ [z]) ++ m :: (P2 ++ R)
              = Q ++ z :: m :: (P2 ++ R) := by simp
          have h2 : (Q ++ [z]).length - 1 = Q.length := by simp
          rw [h1, h2, swap_back_append]
          simp
        rw [hswap]
        have hgoal := ih Q m (z :: P2) R
          (by
            simp only [List.length_append, List.length_cons,
              List.length_nil] at hN ⊢
            omega)
          (by
            simp only [List.length_append, List.length_cons,
              List.length_nil] at hfuel ⊢
            omega)
          (by
            have : Q ++ z :: P2 = (Q ++ [z]) ++ P2 := by simp
            rw [this]
            exact hchain)
          (by
            intro w hw
            rcases List.mem_cons.mp hw with rfl | hw2
            · exact (Bool.not_eq_true _).mp htest
            · exact hP2 w hw2)
          (by
            have hperm : ((Q ++ [z]) ++ m :: (P2 ++ R)).Perm
                (Q ++ m :: ((z :: P2) ++ R)) := by
              have h1 : (Q ++ [z]) ++ m :: (P2 ++ R)
                  = Q ++ z :: m :: (P2 ++ R) := by simp
              have h2 : Q ++ m :: ((z :: P2) ++ R)
                  = Q ++ m :: z :: (P2 ++ R) := by simp
              rw [h1, h2]
              exact (List.Perm.swap m z (P2 ++ R)).append_left Q
            exact (hperm.pairwise_iff (fun hab => Or.symm hab)).mp htot)
        have hidx : (Q ++ [z]).length - 1 = Q.length := by simp
        rw [hidx]
        have hlh : (Q ++ [z]).length + P2.length
            = Q.length + (z :: P2).length := by
          simp
          omega
        rw [hlh]
        rw [hgoal]
        have : Q ++ z :: P2 = (Q ++ [z]) ++ P2 := by simp
        rw [this]

/-- general_gnome_sort computes the stable insertion sort whenever the
comparison is transitive and total over the distinct positions of the
input. -/
theorem general_gnome_sort_eq_stableSort [Inhabited α] (le : α → α → Bool)
    (Htrans : ∀ a b c, le a b = true → le b c = true → le a c = true)
    (l : List α)
    (htot : List.Pairwise (fun a b => le a b = true ∨ le b a = true) l) :
    general_gnome_sort le l = stableSort le l := by
  cases l with
  | nil => rfl
  | cons x R =>
    have hgoal := gnome_step_eq le Htrans (R.length + 1)
      ((R.length + 1 + 1) * (R.length + 1 + 1)) [] x [] R
      (by
        simp only [List.length_nil]
        omega)
      (by
        have h1 : (R.length + 1 + 2) * R.length
            = R.length * R.length + 3 * R.length := by ring
        have h2 : (R.length + 1 + 1) * (R.length + 1 + 1)
            = R.length * R.length + 4 * R.length + 4 := by ring
        simp only [List.length_nil]
        omega)
      (by simp) (by simp) (by simpa using htot)
    simp only [List.nil_append, List.length_nil, Nat.zero_add] at hgoal
    show gnome_step le ((R.length + 1 + 1) * (R.length + 1 + 1))
        (x :: R) 0 0 = stableSort le (x :: R)
    have h1 : stableSort le (x :: R)
        = stableInsertAll le (stableInsert le x []) R := by
      simp [stableSort, stableInsertAll, stableInsert]
    rw [h1]
    simpa using hgoal

/-! #### Permutation and sortedness of the reference insertion sort -/

theorem stableInsert_perm (le : α → α → Bool) (x : α) :
    ∀ l : List α, (stableInsert le x l).Perm (x :: l) := by
  intro l
  induction l with
  | nil => exact List.Perm.refl _
  | cons y ys ih =>
    by_cases h : le y x = true
    · simp only [stableInsert, h, if_pos]
      exact (ih.cons y).trans (List.Perm.swap x y ys)
    · have hif : stableInsert le x (y :: ys) = x :: y :: ys := by
        simp [stableInsert, h]
      rw [hif]

theorem stableInsertAll_perm (le : α → α → Bool) :
    ∀ (l acc : List α), (stableInsertAll le acc l).Perm (acc ++ l) := by
  intro l
  induction l with
  | nil =>
    intro acc
    simp [stableInsertAll]
  | cons x xs ih =>
    intro acc
    have h1 := ih (stableInsert le x acc)
    have h2 : (stableInsert le x acc ++ xs).Perm ((x :: acc) ++ xs) :=
      (stableInsert_perm le x acc).append_right xs
    have h3 : ((x :: acc) ++ xs).Perm (acc ++ x :: xs) := by
      simpa using (@List.perm_middle _ x acc xs).symm
    simpa [stableInsertAll] using (h1.trans h2).trans h3

theorem stableSort_perm (le : α → α → Bool) (l : List α) :
    (stableSort le l).Perm l := by
  simpa [stableSort] using stableInsertAll_perm le l []

theorem stableInsert_chain (le : α → α → Bool) (x : α) :
    ∀ acc : List α, List.Chain' (fun a b => le a b = true) acc →
      (∀ y ∈ acc, le y x = true ∨ le x y = true) →
      List.Chain' (fun a b => le a b = true) (stableInsert le x acc) := by
  intro acc
  induction acc with
  | nil =>
    intro _ _
    simp [stableInsert]
  | cons y ys ih =>
    intro hch htot
    by_cases h : le y x = true
    · simp only [stableInsert, h, if_pos]
      rw [List.chain'_cons']
      constructor
      · intro b hb
        cases ys with
        | nil =>
          simp [stableInsert] at hb
          subst hb
          exact h
        | cons u us =>
          by_cases hu : le u x = true
          · simp [stableInsert, hu] at hb
            subst hb
            exact (List.chain'_cons.mp hch).1
          · simp [stableInsert, hu] at hb
            subst hb
            exact h
      · exact ih hch.tail (fun w hw => htot w (List.mem_cons_of_mem y hw))
    · have hif : stableInsert le x (y :: ys) = x :: y :: ys := by
        simp [stableInsert, h]
      rw [hif, List.chain'_cons]
      exact ⟨(htot y (by simp)).resolve_left h, hch⟩

theorem stableInsertAll_chain (le : α → α → Bool) :
    ∀ (l acc : List α), List.Chain' (fun a b => le a b = true) acc →
      List.Pairwise (fun a b => le a b = true ∨ le b a = true) (acc ++ l) →
      List.Chain' (fun a b => le a b = true) (stableInsertAll le acc l) := by
  intro l
  induction l with
  | nil =>
    intro acc h _
    simpa [stableInsertAll] using h
  | cons x xs ih =>
    intro acc hch htot
    simp only [stableInsertAll]
    apply ih
    · apply stableInsert_chain le x acc hch
      intro y hy
      exact (List.pairwise_append.mp htot).2.2 y hy x (by simp)
    · have hperm : (stableInsert le x acc ++ xs).Perm (acc ++ x :: xs) := by
        have h2 : (stableInsert le x acc ++ xs).Perm ((x :: acc) ++ xs) :=
          (stableInsert_perm le x acc).append_right xs
        have h3 : ((x :: acc) ++ xs).Perm (acc ++ x :: xs) := by
          simpa using (@List.perm_middle _ x acc xs).symm
        exact h2.trans h3
      exact (hperm.pairwise_iff (fun hab => Or.symm hab)).mpr htot

theorem stableSort_chain (le : α → α → Bool) (l : List α)
    (htot : List.Pairwise (fun a b => le a b = true ∨ le b a = true) l) :
    List.Chain' (fun a b => le a b = true) (stableSort le l) := by
  apply stableInsertAll_chain le l [] (by simp)
  simpa using htot

/-! #### Sorted permutations agree under an asymmetric comparison -/

theorem chain_perm_eq (le : α → α → Bool)
    (Htrans : ∀ a b c, le a b = true → le b c = true → le a c = true)
    (Hasym : ∀ a b, le a b = true → le b a = true → False) :
    ∀ l₁ l₂ : List α, l₁.Perm l₂ →
      List.Chain' (fun a b => le a b = true) l₁ →
      List.Chain' (fun a b => le a b = true) l₂ → l₁ = l₂ := by
  intro l₁
  induction l₁ with
  | nil =>
    intro l₂ hp _ _
    exact (hp.symm.eq_nil).symm
  | cons a t₁ ih =>
    intro l₂ hp hc1 hc2
    cases l₂ with
    | nil =>
      have := hp.eq_nil
      simp at this
    | cons b t₂ =>
      by_cases hab : a = b
      · subst hab
        rw [ih t₂ hp.cons_inv hc1.tail hc2.tail]
      · exfalso
        have hamem : a ∈ t₂ := by
          have h1 : a ∈ b :: t₂ := hp.subset (by simp)
          rcases List.mem_cons.mp h1 with h | h
          · exact absurd h hab
          · exact h
        have hbmem : b ∈ t₁ := by
          have h1 : b ∈ a :: t₁ := hp.symm.subset (by simp)
          rcases List.mem_cons.mp h1 with h | h
          · exact absurd h.symm hab
          · exact h
        exact Hasym a b (chain_head_rel le Htrans t₁ a b hc1 hbmem)
          (chain_head_rel le Htrans t₂ b a hc2 hamem)

theorem pairwise_of_total (le : α → α → Bool)
    (Htot : ∀ a b, le a b = true ∨ le b a = true) :
    ∀ l : List α,
      List.Pairwise (fun a b => le a b = true ∨ le b a = true) l := by
  intro l
  induction l with
  | nil => exact List.Pairwise.nil
  | cons x xs ih => exact List.Pairwise.cons (fun b _ => Htot x b) ih

/-! ### Claim C8: permutation stability of canonicalize_amz_headers -/

/-- C8 counterexample: two composed metadata lines sharing the header name
x-amz-meta-a.  Swapping them changes the canonicalized buffer byte for byte
(the values merge in opposite orders), so the claimed invariance under every
permutation of every set of composed lines is false on the code. -/
theorem claim_C8_counterexample :
    (("x-amz-meta-a: 1".toList) :: ("x-amz-meta-a: 2".toList) :: []).Perm
        (("x-amz-meta-a: 2".toList) :: ("x-amz-meta-a: 1".toList) :: []) ∧
      canonicalize_amz_headers
          (("x-amz-meta-a: 1".toList) :: ("x-amz-meta-a: 2".toList) :: []) ≠
        canonicalize_amz_headers
          (("x-amz-meta-a: 2".toList) :: ("x-amz-meta-a: 1".toList) :: []) := by
  constructor
  · exact List.Perm.swap _ _ _
  · decide

/-- C8 (amended): the canonicalized amz headers buffer is byte-for-byte
stable across permutations of the composed header lines provided the lines
carry pairwise distinct header names (hkey is the name of a line, read up to
its colon).  With duplicate names the line order flips, as the
counterexample shows. -/
theorem claim_C8_amend (l₁ l₂ : List (List Char)) (hperm : l₁.Perm l₂)
    (hkeys : List.Pairwise (fun a b => hkey a ≠ hkey b) l₁) :
    canonicalize_amz_headers l₁ = canonicalize_amz_headers l₂ := by
  have hkeys2 : List.Pairwise (fun a b => hkey a ≠ hkey b) l₂ :=
    (hperm.pairwise_iff (fun h => Ne.symm h)).mp hkeys
  have htot1 : List.Pairwise
      (fun a b => headerle a b = true ∨ headerle b a = true) l₁ :=
    hkeys.imp (fun h => headerle_total_of_ne _ _ h)
  have htot2 : List.Pairwise
      (fun a b => headerle a b = true ∨ headerle b a = true) l₂ :=
    hkeys2.imp (fun h => headerle_total_of_ne _ _ h)
  have h1 : header_gnome_sort l₁ = stableSort headerle l₁ :=
    general_gnome_sort_eq_stableSort headerle headerle_trans l₁ htot1
  have h2 : header_gnome_sort l₂ = stableSort headerle l₂ :=
    general_gnome_sort_eq_stableSort headerle headerle_trans l₂ htot2
  have hsorteq : stableSort headerle l₁ = stableSort headerle l₂ := by
    apply chain_perm_eq headerle headerle_trans headerle_asymm
    · exact (stableSort_perm _ l₁).trans
        (hperm.trans (stableSort_perm _ l₂).symm)
    · exact stableSort_chain _ l₁ htot1
    · exact stableSort_chain _ l₂ htot2
  unfold canonicalize_amz_headers
  rw [h1, h2, hsorteq]

/-- C8 amended claim exercised on a concrete permutation of two lines with
distinct names. -/
theorem claim_C8_amend_witness :
    canonicalize_amz_headers
        (("x-amz-date: D".toList) :: ("x-amz-acl: public-read".toList) :: [])
      = canonicalize_amz_headers
        (("x-amz-acl: public-read".toList) :: ("x-amz-date: D".toList) :: []) :=
  claim_C8_amend _ _ (List.Perm.swap _ _ _) (by decide)

/-! ### Claim C1: the V2 string to sign -/

/-- C1: compose_auth_header signs exactly the string VERB newline, md5 value
newline, content type value newline, an empty date line, then the
canonicalized amz headers and the canonicalized resource; the md5 and
content type values are the bytes of the respective composed headers behind
their prefixes. -/
theorem claim_C1 (t : HttpRequestType)
    (md5Header contentTypeHeader amz res m ct : List Char)
    (hm : md5Header = ("Content-MD5: ".toList) ++ m)
    (hct : contentTypeHeader = ("Content-Type: ".toList) ++ ct) :
    compose_auth_header_signbuf t md5Header contentTypeHeader amz res =
      http_request_type_to_verb t ++ ['\n'] ++ m ++ ['\n'] ++ ct ++ ['\n']
        ++ ['\n'] ++ amz ++ res := by
  subst hm
  subst hct
  unfold compose_auth_header_signbuf
  have h13 : ("Content-MD5: ".toList).length = 13 := by decide
  have h14 : ("Content-Type: ".toList).length = 14 := by decide
  rw [if_pos (by simp), if_pos (by simp), ← h13, ← h14,
    List.drop_left, List.drop_left]

/-- C1 exercised on the literal example of the claim: a PUT with md5 value
abc, content type text/plain, one amz line and canonical resource /b/k. -/
theorem claim_C1_witness :
    compose_auth_header_signbuf HttpRequestTypePUT
        ("Content-MD5: abc".toList) ("Content-Type: text/plain".toList)
        ("x-amz-date:20130524T000000Z\n".toList) ("/b/k".toList)
      = ("PUT\nabc\ntext/plain\n\nx-amz-date:20130524T000000Z\n/b/k".toList)
    := by
  have h := claim_C1 HttpRequestTypePUT ("Content-MD5: abc".toList)
    ("Content-Type: text/plain".toList)
    ("x-amz-date:20130524T000000Z\n".toList) ("/b/k".toList)
    ("abc".toList) ("text/plain".toList) (by decide) (by decide)
  rw [h]
  decide

/-! ### Claim C6: final status classification -/

/-- C6: with an OK mid-call status, no parsed server error and a response
code outside 200 to 299, the final status is determined by the code exactly
as the claim lists it. -/
theorem claim_C6 (code : Int) (h : code < 200 ∨ 299 < code) :
    request_finish_status S3StatusOK S3StatusOK code =
      (if code = 0 then S3StatusConnectionFailed
       else if code = 100 then S3StatusOK
       else if code = 301 then S3StatusErrorPermanentRedirect
       else if code = 307 then S3StatusHttpErrorMovedTemporarily
       else if code = 400 then S3StatusHttpErrorBadRequest
       else if code = 403 then S3StatusHttpErrorForbidden
       else if code = 404 then S3StatusHttpErrorNotFound
       else if code = 405 then S3StatusErrorMethodNotAllowed
       else if code = 409 then S3StatusHttpErrorConflict
       else if code = 411 then S3StatusErrorMissingContentLength
       else if code = 412 then S3StatusErrorPreconditionFailed
       else if code = 416 then S3StatusErrorInvalidRange
       else if code = 500 then S3StatusErrorInternalError
       else if code = 501 then S3StatusErrorNotImplemented
       else if code = 503 then S3StatusErrorSlowDown
       else S3StatusHttpErrorUnknown) := by
  unfold request_finish_status
  rw [if_neg (by simp), if_neg (by simp), if_pos h]

/-- C6 exercised on the two literal examples of the spec: HTTP 412 maps to
PreconditionFailed and HTTP 0 to ConnectionFailed. -/
theorem claim_C6_witness :
    request_finish_status S3StatusOK S3StatusOK 412
        = S3StatusErrorPreconditionFailed ∧
      request_finish_status S3StatusOK S3StatusOK 0
        = S3StatusConnectionFailed := by
  constructor
  · rw [claim_C6 412 (Or.inr (by decide))]
    decide
  · rw [claim_C6 0 (Or.inl (by decide))]
    decide

/-! ### Claim C7: the Range header -/

/-- C7: compose_standard_headers emits the Range header according to the
three listed cases: a bounded range for positive start and count, an open
ended range for positive start and zero count, and no header when both are
zero. -/
theorem claim_C7 (S C : Nat) (hS : S < 2 ^ 64) (hC : C < 2 ^ 64) :
    (0 < S → 0 < C → S + C ≤ 2 ^ 64 →
      compose_standard_headers_range S C =
        ("Range: bytes=".toList) ++ decDigits S ++ ['-']
          ++ decDigits (S + C - 1)) ∧
    (0 < S → C = 0 →
      compose_standard_headers_range S C =
        ("Range: bytes=".toList) ++ decDigits S ++ ['-']) ∧
    (S = 0 → C = 0 → compose_standard_headers_range S C = []) := by
  refine ⟨?_, ?_, ?_⟩
  · intro h1 h2 h3
    unfold compose_standard_headers_range
    rw [if_pos (Or.inl (by omega)), if_pos (by omega)]
    rw [Nat.mod_eq_of_lt (by omega)]
  · intro h1 h2
    unfold compose_standard_headers_range
    rw [if_pos (Or.inl (by omega)), if_neg (by omega)]
  · intro h1 h2
    unfold compose_standard_headers_range
    rw [if_neg (by omega)]

/-- C7 exercised on concrete ranges covering all three cases. -/
theorem claim_C7_witness :
    compose_standard_headers_range 5 3 = ("Range: bytes=5-7".toList) ∧
      compose_standard_headers_range 5 0 = ("Range: bytes=5-".toList) ∧
      compose_standard_headers_range 0 0 = [] := by
  refine ⟨?_, ?_, ?_⟩
  · rw [(claim_C7 5 3 (by decide) (by decide)).1 (by decide) (by decide)
      (by decide)]
    decide
  · rw [(claim_C7 5 0 (by decide) (by decide)).2.1 (by decide) rfl]
    decide
  · exact (claim_C7 0 0 (by decide) (by decide)).2.2 rfl rfl

/-! ### Claim C9: S3_set_region_name -/

/-- C9 counterexample: with bound 3, setting the region to a four character
name is rejected with a non OK status, yet the stored region does not stay
unchanged: snprintf already overwrote it with the truncated prefix before
the length test ran. -/
theorem claim_C9_counterexample :
    (S3_set_region_name 3 ("us".toList) (some ("abcd".toList))).1
        ≠ S3StatusOK ∧
      (S3_set_region_name 3 ("us".toList) (some ("abcd".toList))).2
        ≠ ("us".toList) := by
  decide

/-- C9 (amended): a null name leaves the region unchanged with status OK; a
name shorter than the bound is stored with status OK; an overlong name
(formatted length at least the bound) returns S3StatusUriTooLong but the
stored region becomes the truncated prefix of the new name, not the
previous value. -/
theorem claim_C9_amend (maxHostnameSize : Nat) (stored : List Char) :
    S3_set_region_name maxHostnameSize stored none = (S3StatusOK, stored) ∧
    (∀ name : List Char, name.length < maxHostnameSize →
      S3_set_region_name maxHostnameSize stored (some name)
        = (S3StatusOK, name)) ∧
    (∀ name : List Char, maxHostnameSize ≤ name.length →
      S3_set_region_name maxHostnameSize stored (some name)
        = (S3StatusUriTooLong, name.take (maxHostnameSize - 1))) := by
  refine ⟨rfl, ?_, ?_⟩
  · intro name h
    simp only [S3_set_region_name]
    rw [if_neg (by omega)]
    rw [List.take_of_length_le (by omega)]
  · intro name h
    simp only [S3_set_region_name]
    rw [if_pos h]

/-- C9 amended claim exercised at the usual bound 255 and at the concrete
counterexample instance. -/
theorem claim_C9_amend_witness :
    S3_set_region_name 255 ("us-east-1".toList) (some ("eu-west-2".toList))
        = (S3StatusOK, ("eu-west-2".toList)) ∧
      S3_set_region_name 3 ("us".toList) (some ("abcd".toList))
        = (S3StatusUriTooLong, ("ab".toList)) := by
  constructor
  · exact (claim_C9_amend 255 _).2.1 _ (by decide)
  · rw [(claim_C9_amend 3 ("us".toList)).2.2 ("abcd".toList) (by decide)]
    decide

/-! ### Claim C5: outbound body read callback accounting -/

theorem curl_read_step_facts (st : ReadState) (len : Int) (cb : Int → Int)
    (h0 : 0 ≤ st.toS3CallbackBytesRemaining) (hlen : 0 ≤ len) :
    read_offer st len ≤ st.toS3CallbackBytesRemaining ∧
    0 ≤ read_offer st len ∧
    (∀ n, (curl_read_func st len cb).1 = ReadRes.readBytes n →
       0 ≤ n ∧ n ≤ st.toS3CallbackBytesRemaining ∧
       (curl_read_func st len cb).2.toS3CallbackBytesRemaining
         = st.toS3CallbackBytesRemaining - n) ∧
    ((curl_read_func st len cb).1 = ReadRes.readAbort →
       (curl_read_func st len cb).2.toS3CallbackBytesRemaining
         = st.toS3CallbackBytesRemaining) := by
  simp only [curl_read_func, read_offer]
  refine ⟨?_, ?_, ?_, ?_⟩
  · split_ifs <;> omega
  · split_ifs <;> omega
  · intro n hn
    split_ifs at hn ⊢ <;> simp_all <;> omega
  · intro hn
    split_ifs at hn ⊢ <;> simp_all

theorem run_reads_spec :
    ∀ (trace : List (Int × (Int → Int))) (st : ReadState),
      0 ≤ st.toS3CallbackBytesRemaining →
      (∀ p ∈ trace, 0 ≤ p.1) →
      (∀ e ∈ (run_reads st trace).2,
        e.offered ≤ e.remBefore ∧ 0 ≤ e.offered) ∧
      (∀ e ∈ (run_reads st trace).2, ∀ n, e.res = ReadRes.readBytes n →
        0 ≤ n ∧ n ≤ e.remBefore) ∧
      0 ≤ (run_reads st trace).1.toS3CallbackBytesRemaining ∧
      consumedBytes (run_reads st trace).2
          + (run_reads st trace).1.toS3CallbackBytesRemaining
        = st.toS3CallbackBytesRemaining := by
  intro trace
  induction trace with
  | nil =>
    intro st h0 _
    refine ⟨?_, ?_, h0, ?_⟩
    · intro e he
      simp [run_reads] at he
    · intro e he
      simp [run_reads] at he
    · simp [run_reads, consumedBytes]
  | cons p rest ih =>
    intro st h0 hlen
    obtain ⟨len, cb⟩ := p
    have hlen0 : (0 : Int) ≤ len := hlen (len, cb) (by simp)
    have hstep := curl_read_step_facts st len cb h0 hlen0
    have h0next : 0 ≤ (curl_read_func st len cb).2.toS3CallbackBytesRemaining
        := by
      cases hres : (curl_read_func st len cb).1 with
      | readAbort =>
        rw [hstep.2.2.2 hres]
        exact h0
      | readBytes n =>
        rcases hstep.2.2.1 n hres with ⟨hn0, hnle, heq⟩
        rw [heq]
        omega
    have hrest := ih (curl_read_func st len cb).2 h0next
      (fun q hq => hlen q (by simp [hq]))
    refine ⟨?_, ?_, ?_, ?_⟩
    · intro e he
      simp only [run_reads, List.mem_cons] at he
      rcases he with rfl | he2
      · exact ⟨hstep.1, hstep.2.1⟩
      · exact hrest.1 e he2
    · intro e he n hn
      simp only [run_reads, List.mem_cons] at he
      rcases he with rfl | he2
      · rcases hstep.2.2.1 n hn with ⟨hn0, hnle, _⟩
        exact ⟨hn0, hnle⟩
      · exact hrest.2.1 e he2 n hn
    · simpa [run_reads] using hrest.2.2.1
    · simp only [run_reads, consumedBytes]
      cases hres : (curl_read_func st len cb).1 with
      | readAbort =>
        have heq := hstep.2.2.2 hres
        have hrr := hrest.2.2.2
        simp only []
        omega
      | readBytes n =>
        rcases hstep.2.2.1 n hres with ⟨hn0, hnle, heq⟩
        have hrr := hrest.2.2.2
        simp only []
        omega

/-- C5: over any sequence of read callback invocations of one request the
engine never offers more than the remaining send counter, a byte count
returned above the counter is clamped to it, a negative return aborts with
S3StatusAbortedByCallback, the counter never goes negative, and the total
number of consumed bytes never exceeds toS3CallbackTotalSize. -/
theorem claim_C5 (total : Int) (htotal : 0 ≤ total)
    (trace : List (Int × (Int → Int)))
    (hlen : ∀ p ∈ trace, 0 ≤ p.1) :
    (∀ st : ReadState, ∀ len : Int, ∀ cb : Int → Int,
      st.status = S3StatusOK → st.hasToS3Callback = true →
      st.toS3CallbackBytesRemaining ≠ 0 →
      cb (read_offer st len) < 0 →
      curl_read_func st len cb =
        (ReadRes.readAbort, { st with status := S3StatusAbortedByCallback }))
    ∧
    (∀ e ∈ (run_reads (ReadState.mk S3StatusOK total true) trace).2,
      e.offered ≤ e.remBefore ∧
        ∀ n, e.res = ReadRes.readBytes n → 0 ≤ n ∧ n ≤ e.remBefore) ∧
    0 ≤ (run_reads (ReadState.mk S3StatusOK total true)
          trace).1.toS3CallbackBytesRemaining ∧
    consumedBytes (run_reads (ReadState.mk S3StatusOK total true) trace).2
      ≤ total := by
  have hspec := run_reads_spec trace
    (ReadState.mk S3StatusOK total true) htotal hlen
  refine ⟨?_, ?_, hspec.2.2.1, ?_⟩
  · intro st len cb hok hcb hrem hneg
    have hoff : read_offer st len = (if st.toS3CallbackBytesRemaining < len
        then st.toS3CallbackBytesRemaining else len) := by
      simp [read_offer, hok, hcb, hrem]
    rw [hoff] at hneg
    simp [curl_read_func, hok, hcb, hrem, hneg]
  · intro e he
    exact ⟨(hspec.1 e he).1, fun n hn => hspec.2.1 e he n hn⟩
  · have h1 := hspec.2.2.2
    have h2 := hspec.2.2.1
    simp only [ReadState.mk.injEq] at h1
    omega

/-- C5 exercised on a concrete trace: an exact read, then an over-long
request whose callback also over-reports, both clamped. -/
theorem claim_C5_witness :
    (run_reads (ReadState.mk S3StatusOK 5 true)
      ((3, fun n => n) :: (10, fun _ => 99) :: [])).1.toS3CallbackBytesRemaining
        = 0 ∧
    consumedBytes (run_reads (ReadState.mk S3StatusOK 5 true)
      ((3, fun n => n) :: (10, fun _ => 99) :: [])).2 ≤ 5 := by
  have h := claim_C5 5 (by decide) ((3, fun n => n) :: (10, fun _ => 99) :: [])
    (by
      intro p hp
      rcases List.mem_cons.mp hp with rfl | hp2
      · decide
      · rcases List.mem_cons.mp hp2 with rfl | hp3
        · decide
        · simp at hp3)
  refine ⟨?_, h.2.2.2⟩
  decide

/-! ### Claim C10: canonicalize_uri rejects non http(s) inputs untouched -/

theorem check_and_skip_some (c : Char) (o : Option (List Char))
    (r : List Char) (h : check_and_skip c o = some r) : o = some (c :: r) := by
  cases o with
  | none => simp [check_and_skip] at h
  | some l =>
    cases l with
    | nil => simp [check_and_skip] at h
    | cons x t =>
      by_cases hx : x = c
      · simp only [check_and_skip, hx, if_pos, Option.some.injEq] at h
        rw [hx, h]
      · simp [check_and_skip, hx] at h

theorem skip_opt_some (c : Char) (o : Option (List Char)) (r : List Char)
    (h : skip_opt c o = some r) : o = some (c :: r) ∨ o = some r := by
  cases o with
  | none => simp [skip_opt] at h
  | some l =>
    cases l with
    | nil =>
      simp only [skip_opt, Option.some.injEq] at h
      exact Or.inr (by rw [h])
    | cons x t =>
      by_cases hx : x = c
      · simp only [skip_opt, hx, if_pos, Option.some.injEq] at h
        exact Or.inl (by rw [hx, h])
      · simp [skip_opt, hx] at h
        exact Or.inr (by rw [h])

theorem strip_scheme_some (uri r : List Char)
    (h : strip_scheme uri = some r) :
    uri = ("http://".toList) ++ r ∨ uri = ("https://".toList) ++ r := by
  unfold strip_scheme at h
  have s7 := check_and_skip_some '/' _ r h
  have s6 := check_and_skip_some '/' _ _ s7
  have s5 := check_and_skip_some ':' _ _ s6
  rcases skip_opt_some 's' _ _ s5 with s4 | s4
  · have s3 := check_and_skip_some 'p' _ _ s4
    have s2 := check_and_skip_some 't' _ _ s3
    have s1 := check_and_skip_some 't' _ _ s2
    have s0 := check_and_skip_some 'h' _ _ s1
    right
    injection s0 with s0
  · have s3 := check_and_skip_some 'p' _ _ s4
    have s2 := check_and_skip_some 't' _ _ s3
    have s1 := check_and_skip_some 't' _ _ s2
    have s0 := check_and_skip_some 'h' _ _ s1
    left
    injection s0 with s0

/-- C10: an input that does not begin with the scheme bytes http colon
slash slash or https colon slash slash makes canonicalize_uri return
S3StatusErrorInvalidURI with the output buffer untouched. -/
theorem claim_C10 (maxlen : Nat) (buf : Buf) (uri : List Char)
    (h7 : uri.take 7 ≠ ("http://".toList))
    (h8 : uri.take 8 ≠ ("https://".toList)) :
    canonicalize_uri maxlen buf uri = (S3StatusErrorInvalidURI, buf) := by
  cases h : strip_scheme uri with
  | none => simp [canonicalize_uri, h]
  | some r =>
    exfalso
    rcases strip_scheme_some uri r h with h1 | h1
    · apply h7
      rw [h1, show (7 : Nat) = ("http://".toList).length from by decide]
      exact List.take_left _ _
    · apply h8
      rw [h1, show (8 : Nat) = ("https://".toList).length from by decide]
      exact List.take_left _ _

/-- C10 exercised on a concrete non http URI with a nonempty buffer. -/
theorem claim_C10_witness :
    canonicalize_uri 10 ("a".toList) ("ftp://h/x".toList)
      = (S3StatusErrorInvalidURI, ("a".toList)) :=
  claim_C10 10 _ _ (by decide) (by decide)

/-! ## Claim C4: SubjectAltName matching -/

theorem strncasecmpZ_full : ∀ (a b : List Char), a.length = b.length →
    (strncasecmpZ a b a.length = 0 ↔ a.map lowerc = b.map lowerc) := by
  intro a
  induction a with
  | nil =>
    intro b h
    cases b with
    | nil => simp [strncasecmpZ]
    | cons c t => simp at h
  | cons c1 t1 ih =>
    intro b h
    cases b with
    | nil => simp at h
    | cons c2 t2 =>
      simp only [List.length_cons] at h
      have h2 : t1.length = t2.length := by omega
      simp only [List.length_cons, strncasecmpZ]
      by_cases hc : lowerc c1 = lowerc c2
      · rw [if_pos hc, ih t2 h2]
        simp [hc]
      · rw [if_neg hc]
        constructor
        · intro h0
          have hn : (lowerc c1).toNat = (lowerc c2).toNat := by omega
          exact absurd (char_eq_of_toNat_eq hn) hc
        · intro h0
          simp only [List.map_cons, List.cons.injEq] at h0
          exact absurd h0.1 hc

theorem strcasecmpZ_eq_zero_iff : ∀ (a b : List Char), noNul a → noNul b →
    (strcasecmpZ a b = 0 ↔ a.map lowerc = b.map lowerc) := by
  intro a
  induction a with
  | nil =>
    intro b _ hb
    cases b with
    | nil => simp [strcasecmpZ]
    | cons c t =>
      simp only [noNul, List.mem_cons, not_or] at hb
      have hc : c ≠ nulChar := fun h => hb.1 h.symm
      simp only [strcasecmpZ]
      constructor
      · intro h0
        have h1 : (lowerc c).toNat = 0 := by omega
        exact absurd h1 (lowerc_toNat_ne_zero c hc)
      · intro h0
        simp at h0
  | cons c1 t1 ih =>
    intro b ha hb
    simp only [noNul, List.mem_cons, not_or] at ha
    have hc1 : c1 ≠ nulChar := fun h => ha.1 h.symm
    have ht1 : noNul t1 := ha.2
    cases b with
    | nil =>
      simp only [strcasecmpZ]
      constructor
      · intro h0
        have h1 : (lowerc c1).toNat = 0 := by omega
        exact absurd h1 (lowerc_toNat_ne_zero c1 hc1)
      · intro h0
        simp at h0
    | cons c2 t2 =>
      simp only [noNul, List.mem_cons, not_or] at hb
      have ht2 : noNul t2 := hb.2
      simp only [strcasecmpZ]
      by_cases hc : lowerc c1 = lowerc c2
      · rw [if_pos hc, ih t2 ht1 ht2]
        simp [hc]
      · rw [if_neg hc]
        constructor
        · intro h0
          have hn : (lowerc c1).toNat = (lowerc c2).toNat := by omega
          exact absurd (char_eq_of_toNat_eq hn) hc
        · intro h0
          simp only [List.map_cons, List.cons.injEq] at h0
          exact absurd h0.1 hc

theorem noNul_takeWhile (l : List Char) :
    noNul (l.takeWhile (fun c => c ≠ nulChar)) := by
  intro hmem
  have h := List.mem_takeWhile_imp hmem
  simp at h

theorem strchrSuffix_subset (c : Char) : ∀ (l ts : List Char),
    strchrSuffix c l = some ts → ts ⊆ l := by
  intro l
  induction l with
  | nil =>
    intro ts h
    simp [strchrSuffix] at h
  | cons x t ih =>
    intro ts h
    simp only [strchrSuffix] at h
    split_ifs at h with hx
    · injection h with h
      subst h
      exact fun y hy => hy
    · exact fun y hy => List.mem_cons_of_mem x (ih ts h hy)

theorem wildcard_guard_iff (d : List Char) :
    (2 < d.length ∧ d.getD 0 nulChar = '*' ∧ d.getD 1 nulChar = '.') ↔
    (2 < d.length ∧ d.take 2 = ['*', '.']) := by
  cases d with
  | nil => simp
  | cons c1 t =>
    cases t with
    | nil => simp [List.take]
    | cons c2 r =>
      have h0 : (c1 :: c2 :: r).getD 0 nulChar = c1 := rfl
      have h1 : (c1 :: c2 :: r).getD 1 nulChar = c2 := rfl
      have h2 : (c1 :: c2 :: r).take 2 = [c1, c2] := rfl
      rw [h0, h1, h2]
      constructor
      · rintro ⟨hl, ha, hb⟩
        subst ha
        subst hb
        exact ⟨hl, rfl⟩
      · rintro ⟨hl, ht⟩
        injection ht with ha ht2
        injection ht2 with hb
        exact ⟨hl, ha, hb⟩

/-- C4 counterexample: the claim omits the source guard that the DNS entry
be longer than two bytes, so for the two byte entry asterisk dot and the
hostname a dot the claim predicate accepts while the code rejects. -/
theorem claim_C4_counterexample :
    matches_subject_alt_name_entry ['a', '.'] ['*', '.'] = false ∧
    san_claim_accepts ['a', '.'] ['*', '.'] = true := by
  decide

/-- C4 amended: per-entry SubjectAltName acceptance agrees with the claim
predicate once the wildcard branch is guarded by the entry being longer
than two bytes, for every hostname free of NUL bytes. -/
theorem claim_C4_amend (hostname asn1bytes : List Char) (hh : noNul hostname) :
    matches_subject_alt_name_entry hostname asn1bytes =
      san_amended_accepts hostname asn1bytes := by
  have hdn : noNul (asn1bytes.takeWhile (fun c => c ≠ nulChar)) :=
    noNul_takeWhile asn1bytes
  simp only [matches_subject_alt_name_entry, san_amended_accepts]
  generalize hg : asn1bytes.takeWhile (fun c => c ≠ nulChar) = d
  rw [hg] at hdn
  by_cases hA : asn1bytes.length ≠ d.length
  · rw [if_pos hA, if_pos hA]
  · rw [if_neg hA, if_neg hA]
    have hexact : (hostname.length = d.length ∧
        strncasecmpZ hostname d hostname.length = 0)
        ↔ (d.map lowerc = hostname.map lowerc) := by
      constructor
      · rintro ⟨hl, h0⟩
        exact ((strncasecmpZ_full hostname d hl).mp h0).symm
      · intro hm
        have hlen := congrArg List.length hm
        simp only [List.length_map] at hlen
        exact ⟨hlen.symm, (strncasecmpZ_full hostname d hlen.symm).mpr hm.symm⟩
    by_cases hE : hostname.length = d.length ∧
        strncasecmpZ hostname d hostname.length = 0
    · rw [if_pos hE, if_pos (hexact.mp hE)]
    · rw [if_neg hE, if_neg (fun hm => hE (hexact.mpr hm))]
      by_cases hW : 2 < d.length ∧ d.getD 0 nulChar = '*' ∧
          d.getD 1 nulChar = '.'
      · rw [if_pos hW, if_pos ((wildcard_guard_iff d).mp hW)]
        cases hts : strchrSuffix '.' hostname with
        | none => simp [hts]
        | some ts =>
          have hts_n : noNul ts :=
            fun hm => hh (strchrSuffix_subset '.' hostname ts hts hm)
          have hdrop_n : noNul (d.drop 1) :=
            fun hm => hdn (List.mem_of_mem_drop hm)
          simp only [hts, decide_eq_decide]
          exact strcasecmpZ_eq_zero_iff ts (d.drop 1) hts_n hdrop_n
      · rw [if_neg hW, if_neg (fun h => hW ((wildcard_guard_iff d).mpr h))]

/-- C4 amended claim exercised on a wildcard entry that matches. -/
theorem claim_C4_amend_witness :
    matches_subject_alt_name_entry ['a', '.', 'b'] ['*', '.', 'b'] =
      san_amended_accepts ['a', '.', 'b'] ['*', '.', 'b'] ∧
    matches_subject_alt_name_entry ['a', '.', 'b'] ['*', '.', 'b'] = true :=
  ⟨claim_C4_amend ['a', '.', 'b'] ['*', '.', 'b'] (by decide), by decide⟩

/-! ## Claim C2: the content-length skip of canonicalize_headers -/

theorem strncasecmpZ_eq_zero_iff : ∀ (a b : List Char), noNul a → noNul b →
    ∀ n : Nat, b.length < n →
    (strncasecmpZ a b n = 0 ↔ a.map lowerc = b.map lowerc) := by
  intro a
  induction a with
  | nil =>
    intro b _ hb n hn
    cases b with
    | nil =>
      cases n with
      | zero => simp [strncasecmpZ]
      | succ m => simp [strncasecmpZ]
    | cons c t =>
      simp only [noNul, List.mem_cons, not_or] at hb
      have hc : c ≠ nulChar := fun h => hb.1 h.symm
      cases n with
      | zero => simp at hn
      | succ m =>
        simp only [strncasecmpZ]
        constructor
        · intro h0
          have h1 : (lowerc c).toNat = 0 := by omega
          exact absurd h1 (lowerc_toNat_ne_zero c hc)
        · intro h0
          simp at h0
  | cons c1 t1 ih =>
    intro b ha hb n hn
    simp only [noNul, List.mem_cons, not_or] at ha
    have hc1 : c1 ≠ nulChar := fun h => ha.1 h.symm
    have ht1 : noNul t1 := ha.2
    cases b with
    | nil =>
      cases n with
      | zero => simp at hn
      | succ m =>
        simp only [strncasecmpZ]
        constructor
        · intro h0
          have h1 : (lowerc c1).toNat = 0 := by omega
          exact absurd h1 (lowerc_toNat_ne_zero c1 hc1)
        · intro h0
          simp at h0
    | cons c2 t2 =>
      simp only [noNul, List.mem_cons, not_or] at hb
      have ht2 : noNul t2 := hb.2
      cases n with
      | zero => simp at hn
      | succ m =>
        have hm : t2.length < m := by
          simp only [List.length_cons] at hn
          omega
        simp only [strncasecmpZ]
        by_cases hc : lowerc c1 = lowerc c2
        · rw [if_pos hc, ih t2 ht1 ht2 m hm]
          simp [hc]
        · rw [if_neg hc]
          constructor
          · intro h0
            have hq : (lowerc c1).toNat = (lowerc c2).toNat := by omega
            exact absurd (char_eq_of_toNat_eq hq) hc
          · intro h0
            simp only [List.map_cons, List.cons.injEq] at h0
            exact absurd h0.1 hc

/-- C2 counterexample: a first outbound header whose NAME is content-length
but which carries a colon and value is NOT skipped: the 15 byte strncasecmp
also compares the terminator of the literal, so the entry lands in both the
canonical block and the signed headers list. -/
theorem claim_C2_counterexample :
    canonicalize_headers 100 [] [("Content-Length: 3").toList] =
      (S3StatusOK, ("content-length:3\n\ncontent-length\n").toList,
        ("content-length").toList) := by
  decide

/-- C2 amended: the first outbound header entry is dropped if and only if
its whole data string equals content-length case-insensitively, with no
colon or value following; any longer or different first entry is kept. -/
theorem claim_C2_amend (h : List Char) (t : List (List Char))
    (hn0 : noNul h) :
    skip_first_content_length (h :: t) =
      (if h.map lowerc = ("content-length").toList then t else h :: t) := by
  simp only [skip_first_content_length]
  have hiff := strncasecmpZ_eq_zero_iff h ("content-length".toList) hn0
    (by decide) 15 (by decide)
  have hlit : ("content-length".toList).map lowerc =
      ("content-length").toList := by decide
  rw [hlit] at hiff
  by_cases hc : strncasecmpZ h ("content-length".toList) 15 = 0
  · rw [if_pos hc, if_pos (hiff.mp hc)]
  · rw [if_neg hc, if_neg (fun hm => hc (hiff.mpr hm))]

/-- C2 amended claim exercised on a bare content-length first entry, which
is the one case that is skipped. -/
theorem claim_C2_amend_witness :
    skip_first_content_length
        [("Content-Length").toList, ("Host: h").toList] =
      (if (("Content-Length").toList).map lowerc = ("content-length").toList
       then [("Host: h").toList]
       else [("Content-Length").toList, ("Host: h").toList]) ∧
    skip_first_content_length
        [("Content-Length").toList, ("Host: h").toList] =
      [("Host: h").toList] :=
  ⟨claim_C2_amend _ _ (by decide), by decide⟩

/-! ## Claim C3: the V4 canonical query -/

theorem specBadQuery_cons_ne (c : Char) (rest : List Char) (hc : c ≠ '&') :
    specBadQuery (c :: rest) = specBadQuery rest := by
  cases rest with
  | nil => simp [specBadQuery, hasDuo, hc]
  | cons b r2 =>
    simp only [specBadQuery]
    rw [List.getLast?_cons_cons]
    have h1 : hasDuo '&' '&' (c :: b :: r2) = hasDuo '&' '&' (b :: r2) := by
      simp [hasDuo, beq_false_of_ne hc]
    have h2 : hasDuo '&' '=' (c :: b :: r2) = hasDuo '&' '=' (b :: r2) := by
      simp [hasDuo, beq_false_of_ne hc]
    rw [h1, h2]

theorem specBadQuery_amp (c2 : Char) (r2 : List Char)
    (h2 : ¬(c2 = '&' ∨ c2 = '=')) :
    specBadQuery ('&' :: c2 :: r2) = specBadQuery (c2 :: r2) := by
  push_neg at h2
  simp only [specBadQuery]
  rw [List.getLast?_cons_cons]
  have ha : hasDuo '&' '&' ('&' :: c2 :: r2) = hasDuo '&' '&' (c2 :: r2) := by
    simp [hasDuo, beq_false_of_ne h2.1]
  have hb : hasDuo '&' '=' ('&' :: c2 :: r2) = hasDuo '&' '=' (c2 :: r2) := by
    simp [hasDuo, beq_false_of_ne h2.2]
  rw [ha, hb]

theorem specBadQuery_amp_bad (c2 : Char) (r2 : List Char)
    (h2 : c2 = '&' ∨ c2 = '=') : specBadQuery ('&' :: c2 :: r2) = true := by
  rcases h2 with h2 | h2 <;> subst h2 <;> simp [specBadQuery, hasDuo]

theorem gather_params_spec : ∀ (q : List Char) (cnt : Nat),
    cnt + (ampSuffixes q).length ≤ 8192 →
    gather_params cnt q =
      (if specBadQuery q = true then Except.error S3StatusBadMetaData
       else Except.ok (ampSuffixes q)) := by
  intro q
  induction q with
  | nil =>
    intro cnt h
    simp [gather_params, ampSuffixes, specBadQuery, hasDuo]
  | cons c rest ih =>
    intro cnt h
    by_cases hc : c = '&'
    · subst hc
      cases rest with
      | nil =>
        simp [gather_params, show specBadQuery ['&'] = true from by decide]
      | cons c2 r2 =>
        by_cases h2 : c2 = '&' ∨ c2 = '='
        · rw [specBadQuery_amp_bad c2 r2 h2]
          simp [gather_params, h2]
        · have hamp : ampSuffixes ('&' :: c2 :: r2)
              = (c2 :: r2) :: ampSuffixes (c2 :: r2) := by
            simp [ampSuffixes]
          rw [hamp] at h
          simp only [List.length_cons] at h
          have hcnt : ¬ (8192 ≤ cnt) := by omega
          have hrec := ih (cnt + 1) (by omega)
          have hstep : gather_params cnt ('&' :: c2 :: r2)
              = Except.map (fun t => (c2 :: r2) :: t)
                  (gather_params (cnt + 1) (c2 :: r2)) := by
            rw [gather_params.eq_def]
            simp [h2, hcnt]
          rw [specBadQuery_amp c2 r2 h2, hamp, hstep, hrec]
          by_cases hbad : specBadQuery (c2 :: r2) = true
          · simp [hbad, Except.map]
          · simp [hbad, Except.map]
    · have hg : gather_params cnt (c :: rest) = gather_params cnt rest := by
        simp [gather_params, hc]
      have ha : ampSuffixes (c :: rest) = ampSuffixes rest := by
        simp [ampSuffixes, hc]
      rw [ha] at h ⊢
      rw [hg, specBadQuery_cons_ne c rest hc]
      exact ih cnt h

theorem map_takeSeg_suffixes : ∀ q : List Char,
    (q :: ampSuffixes q).map takeSeg = splitAmp q := by
  intro q
  induction q with
  | nil => simp [ampSuffixes, takeSeg, splitAmp]
  | cons c rest ih =>
    by_cases hc : c = '&'
    · subst hc
      have h1 : takeSeg ('&' :: rest) = [] := by simp [takeSeg]
      have h2 : ampSuffixes ('&' :: rest) = rest :: ampSuffixes rest := by
        simp [ampSuffixes]
      have h3 : splitAmp ('&' :: rest) = [] :: splitAmp rest := by
        simp [splitAmp]
      rw [h2, List.map_cons, h1, h3, ← ih]
    · have h1 : takeSeg (c :: rest) = c :: takeSeg rest := by
        simp [takeSeg, List.takeWhile_cons, hc]
      have h2 : ampSuffixes (c :: rest) = ampSuffixes rest := by
        simp [ampSuffixes, hc]
      have hsp : splitAmp (c :: rest)
          = (c :: takeSeg rest) :: List.map takeSeg (ampSuffixes rest) := by
        simp only [splitAmp]
        rw [if_neg hc, ← ih]
        simp
      rw [List.map_cons, h1, h2, hsp]

theorem joinAmp_true_eq : ∀ ps : List (List Char),
    joinAmp true ps = specJoinParams ps := by
  intro ps
  cases ps with
  | nil => simp [joinAmp, specJoinParams]
  | cons s rest => simp [joinAmp]

theorem joinAmp_cons (b : Bool) (s : List Char) (ps : List (List Char)) :
    joinAmp b (s :: ps)
      = (if b = true then [] else ['&']) ++ (fixParam s ++ joinAmp false ps) := by
  have hsp : specJoinParams (s :: ps) = fixParam s ++ joinAmp false ps := by
    cases ps with
    | nil => simp [specJoinParams, joinAmp]
    | cons t ts => simp [specJoinParams, joinAmp]
  cases b with
  | true => simp [joinAmp, hsp]
  | false => simp [joinAmp, hsp]

theorem fixParam_length (s : List Char) :
    s.length ≤ (fixParam s).length ∧ (fixParam s).length ≤ s.length + 1 := by
  by_cases h : '=' ∈ s <;> simp [fixParam, h]

theorem stableInsert_map_takeSeg (x : List Char) : ∀ l : List (List Char),
    (stableInsert paramle x l).map takeSeg
      = stableInsert paramle (takeSeg x) (l.map takeSeg) := by
  intro l
  induction l with
  | nil => simp [stableInsert]
  | cons y ys ih =>
    cases hle : paramle y x with
    | true =>
      have hle2 : paramle (takeSeg y) (takeSeg x) = true := by
        rw [paramle_takeSeg]
        exact hle
      simp [stableInsert, hle, hle2, ih]
    | false =>
      have hle2 : paramle (takeSeg y) (takeSeg x) = false := by
        rw [paramle_takeSeg]
        exact hle
      simp [stableInsert, hle, hle2]

theorem stableInsertAll_map_takeSeg :
    ∀ (xs acc : List (List Char)),
    (stableInsertAll paramle acc xs).map takeSeg
      = stableInsertAll paramle (acc.map takeSeg) (xs.map takeSeg) := by
  intro xs
  induction xs with
  | nil => intro acc; simp [stableInsertAll]
  | cons x xs ih =>
    intro acc
    simp only [stableInsertAll, List.map_cons]
    rw [ih, stableInsert_map_takeSeg]

theorem stableSort_map_takeSeg (l : List (List Char)) :
    (stableSort paramle l).map takeSeg = stableSort paramle (l.map takeSeg) := by
  simp [stableSort, stableInsertAll_map_takeSeg]

theorem append_param_chars_ok (maxlen : Nat) : ∀ (p : List Char) (buf : Buf)
    (hv : Bool), buf.length + (takeSeg p).length < maxlen →
    append_param_chars maxlen buf hv p =
      (S3StatusOK, buf ++ takeSeg p, hv || decide ('=' ∈ takeSeg p)) := by
  intro p
  induction p with
  | nil =>
    intro buf hv h
    simp [append_param_chars, takeSeg]
  | cons c rest ih =>
    intro buf hv h
    by_cases hc : c = '&'
    · subst hc
      simp [append_param_chars, takeSeg]
    · have hseg : takeSeg (c :: rest) = c :: takeSeg rest := by
        simp [takeSeg, List.takeWhile_cons, hc]
      rw [hseg] at h ⊢
      simp only [List.length_cons] at h
      have hroom : ¬ (maxlen - 1 ≤ buf.length) := by omega
      have happ : string_append_char maxlen buf c = (S3StatusOK, buf ++ [c]) := by
        simp only [string_append_char, if_neg hroom]
      simp only [append_param_chars, if_neg hc, happ]
      have hrec := ih (buf ++ [c]) (hv || (c == '=')) (by
        simp only [List.length_append, List.length_cons, List.length_nil]
        omega)
      rw [hrec]
      by_cases hc2 : c = '='
      · subst hc2
        simp
      · have hb : (c == '=') = false := beq_false_of_ne hc2
        have hm : ¬ ('=' = c) := fun hx => hc2 hx.symm
        simp [hb, hm, Bool.or_assoc]

theorem sap_go_ok (maxlen : Nat) : ∀ (params : List (List Char)) (buf : Buf)
    (isFirst : Bool),
    buf.length + (joinAmp isFirst (params.map takeSeg)).length < maxlen →
    sap_go maxlen buf isFirst params =
      (S3StatusOK, buf ++ joinAmp isFirst (params.map takeSeg)) := by
  intro params
  induction params with
  | nil =>
    intro buf isFirst h
    simp [sap_go, joinAmp]
  | cons p rest ih =>
    intro buf isFirst h
    have hfp := fixParam_length (takeSeg p)
    rw [List.map_cons, joinAmp_cons] at h ⊢
    simp only [List.length_append] at h
    have hsep : (if isFirst = true then ([] : List Char) else ['&']).length ≤ 1 := by
      cases isFirst <;> simp
    -- the separator step
    have hsepOk :
        (if isFirst = true then (S3StatusOK, buf)
         else
           match string_append_char maxlen buf '&' with
           | (S3StatusOK, buf1) => (S3StatusOK, buf1)
           | (_, buf1) => (S3StatusQueryParamsTooLong, buf1)) =
        (S3StatusOK, buf ++ (if isFirst = true then [] else ['&'])) := by
      cases isFirst with
      | true => simp
      | false =>
        have hroom : ¬ (maxlen - 1 ≤ buf.length) := by
          simp only [Bool.false_eq_true, if_false, List.length_cons,
            List.length_nil] at h ⊢
          omega
        simp only [Bool.false_eq_true, if_false]
        simp [string_append_char, hroom]
    simp only [sap_go, hsepOk]
    have hpc := append_param_chars_ok maxlen p
      (buf ++ (if isFirst = true then [] else ['&'])) false (by
        simp only [List.length_append]
        cases isFirst <;> simp_all <;> omega)
    rw [hpc]
    by_cases hv : '=' ∈ takeSeg p
    · have hfix : fixParam (takeSeg p) = takeSeg p := by
        simp [fixParam, hv]
      rw [hfix] at h
      have hrec := ih (buf ++ (if isFirst = true then [] else ['&']) ++ takeSeg p)
        false (by
          simp only [List.length_append]
          cases isFirst <;> simp_all <;> omega)
      simp only [decide_eq_true hv, Bool.or_true, if_true, hrec, hfix]
      simp [List.append_assoc]
    · have hfix : fixParam (takeSeg p) = takeSeg p ++ ['='] := by
        simp [fixParam, hv]
      rw [hfix] at h
      simp only [List.length_append, List.length_cons, List.length_nil] at h
      have hroom2 : ¬ (maxlen - 1 ≤
          (buf ++ (if isFirst = true then [] else ['&']) ++ takeSeg p).length) := by
        simp only [List.length_append]
        cases isFirst <;> simp_all <;> omega
      have heq : string_append_char maxlen
          (buf ++ (if isFirst = true then [] else ['&']) ++ takeSeg p) '=' =
          (S3StatusOK, buf ++ (if isFirst = true then [] else ['&'])
            ++ takeSeg p ++ ['=']) := by
        simp only [string_append_char, if_neg hroom2]
      have hrec := ih (buf ++ (if isFirst = true then [] else ['&'])
          ++ takeSeg p ++ ['=']) false (by
        simp only [List.length_append]
        cases isFirst <;> simp_all <;> omega)
      simp only [decide_eq_false hv, Bool.or_false, if_false, heq, hrec, hfix]
      simp [List.append_assoc]

/-- C3: canonicalize_query_params splits the query string on ampersands,
stable-sorts the entries by name then value with the terminator set of the
equals sign, the ampersand and the string end, joins them with ampersands
appending an equals sign to entries without one, and terminates with a
newline; a query with two consecutive ampersands, an ampersand followed by
an equals sign, or a trailing ampersand is rejected with BadMetaData and
the buffer left untouched.  Boundedness side conditions: at most 8192
entries and an output that fits the buffer. -/
theorem claim_C3 (maxlen : Nat) (buf : Buf) (q : List Char)
    (hcnt : (ampSuffixes q).length ≤ 8191)
    (hfit : buf.length + (specQueryOut q).length < maxlen) :
    canonicalize_query_params maxlen buf q =
      (if specBadQuery q = true then (S3StatusBadMetaData, buf)
       else (S3StatusOK, buf ++ specQueryOut q)) := by
  have hg := gather_params_spec q 1 (by omega)
  by_cases hbad : specBadQuery q = true
  · rw [if_pos hbad] at hg ⊢
    simp [canonicalize_query_params, hg]
  · rw [if_neg hbad] at hg ⊢
    have hsort : general_gnome_sort paramle (q :: ampSuffixes q)
        = stableSort paramle (q :: ampSuffixes q) :=
      general_gnome_sort_eq_stableSort paramle paramle_trans _
        (pairwise_of_total paramle paramle_total _)
    have hjoin : (stableSort paramle (q :: ampSuffixes q)).map takeSeg
        = stableSort paramle (splitAmp q) := by
      rw [stableSort_map_takeSeg, map_takeSeg_suffixes]
    have hlen1 : (joinAmp true
          ((stableSort paramle (q :: ampSuffixes q)).map takeSeg)).length + 1
        = (specQueryOut q).length := by
      rw [hjoin, joinAmp_true_eq, specQueryOut]
      simp
    have hsap := sap_go_ok maxlen (stableSort paramle (q :: ampSuffixes q))
      buf true (by omega)
    simp only [canonicalize_query_params, hg, string_append_params, hsort,
      hsap]
    have hroom : ¬ (maxlen - 1 ≤ (buf ++ joinAmp true
        ((stableSort paramle (q :: ampSuffixes q)).map takeSeg)).length) := by
      simp only [List.length_append]
      omega
    simp only [string_append_char, if_neg hroom]
    simp [specQueryOut, hjoin, joinAmp_true_eq, List.append_assoc]

/-- C3 exercised on the query b=2 amp a amp b=1: the entry a sorts first
and receives an explicit empty value, the two b entries keep their original
relative order, and the output ends in a newline. -/
theorem claim_C3_witness :
    canonicalize_query_params 50 [] (("b=2&a&b=1").toList) =
      (if specBadQuery (("b=2&a&b=1").toList) = true
       then (S3StatusBadMetaData, [])
       else (S3StatusOK, [] ++ specQueryOut (("b=2&a&b=1").toList))) ∧
    canonicalize_query_params 50 [] (("b=2&a&b=1").toList) =
      (S3StatusOK, ("a=&b=2&b=1\n").toList) :=
  ⟨claim_C3 50 [] _ (by decide) (by decide), by decide⟩
